import Mathlib

/-!
Verification development for the Hermes writing application
(assistant tool-orchestration pipeline).

The JavaScript/TypeScript sources are shallowly embedded: strings are
`List Char` (wrapped in `String` where the source type is a string),
machine integers are `Nat`/`Int`, external collaborators (LLM stream,
MCP gateway, database, JSON parser, clock) are oracles passed in as
explicit function arguments, and the orchestrator's observable behaviour
(SSE events, database writes, model calls) is a trace of `Action`s.

Every definition is translated from the repository source unless its doc
comment says otherwise.
-/

namespace Hermes

/-! ## JavaScript string primitives

Helpers mirroring the exact JS string operations used by the sources.
JS strings are UTF-16; all inputs evaluated here are ASCII, so a
`List Char` model is exact for them.  JS `\s` also matches Unicode
spaces; the sources only ever meet ASCII whitespace. -/

/-- ASCII whitespace, the fragment of the JS `\s` class relevant here. -/
def isJsWs (c : Char) : Bool :=
  c = ' ' || c = '\t' || c = '\n' || c = '\r' || c = '\x0b' || c = '\x0c'

/-- JS `String.prototype.trim` (ASCII fragment). -/
def jsTrim (l : List Char) : List Char :=
  ((l.dropWhile isJsWs).reverse.dropWhile isJsWs).reverse

/-- The backtick character (written via its code point). -/
def backtickChar : Char := Char.ofNat 96

/-! ## Markdown Normalizer — `stripMarkdown` (server route `routes/assistant.ts`)

The source is a chain of twelve JS `String.replace(/…/g, …)` calls.  Each
rule is embedded as a left-to-right scanner with the same semantics as the
JS global regex replace: attempt a match at the current position, replace
and continue after the match, otherwise emit one character and retry at
the next position.  Each scanner carries a fuel argument (instantiated
with the input length by its wrapper) so recursion is structural; one
fuel unit is spent per position, and every step consumes at least one
input character, so the fuel never runs out on the wrapper's call. -/

/-- Rule `[text](url) → text` (regex `\[([^\]]*)\]\(([^)]*)\)`). -/
def stripLinksAux : Nat → List Char → List Char
  | 0, l => l
  | _ + 1, [] => []
  | fuel + 1, '[' :: rest =>
    match List.span (· != ']') rest with
    | (inner, ']' :: '(' :: rest2) =>
      match List.span (· != ')') rest2 with
      | (_, ')' :: rest3) => inner ++ stripLinksAux fuel rest3
      | _ => '[' :: stripLinksAux fuel rest
    | _ => '[' :: stripLinksAux fuel rest
  | fuel + 1, c :: cs => c :: stripLinksAux fuel cs

def stripLinks (l : List Char) : List Char := stripLinksAux l.length l

/-- Rule `**bold** → bold` (regex `\*\*([^*]+)\*\*`). -/
def stripBoldAux : Nat → List Char → List Char
  | 0, l => l
  | _ + 1, [] => []
  | fuel + 1, '*' :: '*' :: rest =>
    match List.span (· != '*') rest with
    | ([], _) => '*' :: stripBoldAux fuel ('*' :: rest)
    | (inner, '*' :: '*' :: rest2) => inner ++ stripBoldAux fuel rest2
    | (_, _) => '*' :: stripBoldAux fuel ('*' :: rest)
  | fuel + 1, c :: cs => c :: stripBoldAux fuel cs

def stripBold (l : List Char) : List Char := stripBoldAux l.length l

/-- Rule `*italic* → italic` (regex `(?<!\*)\*([^*]+)\*(?!\*)`).  The
scanner tracks the previous character of the pass input to decide the
lookbehind, exactly as the JS engine inspects the input string. -/
def stripItalicAux : Nat → Option Char → List Char → List Char
  | 0, _, l => l
  | _ + 1, _, [] => []
  | fuel + 1, prev, '*' :: rest =>
    if prev = some '*' then '*' :: stripItalicAux fuel (some '*') rest
    else
      match List.span (· != '*') rest with
      | ([], _) => '*' :: stripItalicAux fuel (some '*') rest
      | (inner, '*' :: rest2) =>
        if rest2.head? = some '*' then '*' :: stripItalicAux fuel (some '*') rest
        else inner ++ stripItalicAux fuel (some '*') rest2
      | (_, _) => '*' :: stripItalicAux fuel (some '*') rest
  | fuel + 1, _, c :: cs => c :: stripItalicAux fuel (some c) cs

def stripItalic (l : List Char) : List Char := stripItalicAux l.length none l

/-- Rule `~~strike~~ → strike` (regex `~~([^~]+)~~`). -/
def stripStrikeAux : Nat → List Char → List Char
  | 0, l => l
  | _ + 1, [] => []
  | fuel + 1, '~' :: '~' :: rest =>
    match List.span (· != '~') rest with
    | ([], _) => '~' :: stripStrikeAux fuel ('~' :: rest)
    | (inner, '~' :: '~' :: rest2) => inner ++ stripStrikeAux fuel rest2
    | (_, _) => '~' :: stripStrikeAux fuel ('~' :: rest)
  | fuel + 1, c :: cs => c :: stripStrikeAux fuel cs

def stripStrike (l : List Char) : List Char := stripStrikeAux l.length l

/-- Rule for inline code spans (single-backtick pairs, nonempty inner). -/
def stripCodeAux : Nat → List Char → List Char
  | 0, l => l
  | _ + 1, [] => []
  | fuel + 1, c :: cs =>
    if c = backtickChar then
      match List.span (· != backtickChar) cs with
      | ([], _) => c :: stripCodeAux fuel cs
      | (inner, d :: rest2) =>
        if d = backtickChar then inner ++ stripCodeAux fuel rest2
        else c :: stripCodeAux fuel cs
      | (_, _) => c :: stripCodeAux fuel cs
    else c :: stripCodeAux fuel cs

def stripCode (l : List Char) : List Char := stripCodeAux l.length l

/-- A nonempty run of JS whitespace (the `\s+` part of the line-anchored
rules; greedy, and it may consume newlines).  Returns the run and the
rest. -/
def wsRun (l : List Char) : Option (List Char × List Char) :=
  match List.span isJsWs l with
  | ([], _) => none
  | (run, rest) => some (run, rest)

/-- A line-start matcher returns whether the position after the match is
again at a line start (the JS `m`-flag `^`), and the rest of the input. -/
def headingMatch (l : List Char) : Option (Bool × List Char) :=
  let hashes := l.takeWhile (· == '#')
  if 1 ≤ hashes.length ∧ hashes.length ≤ 6 then
    match wsRun (l.drop hashes.length) with
    | some (run, rest) => some (run.getLast? = some '\n', rest)
    | none => none
  else none

def quoteMatch (l : List Char) : Option (Bool × List Char) :=
  match l with
  | '>' :: rest =>
    match wsRun rest with
    | some (run, rest2) => some (run.getLast? = some '\n', rest2)
    | none => none
  | _ => none

def bulletMatch (l : List Char) : Option (Bool × List Char) :=
  match l with
  | c :: rest =>
    if c = '-' ∨ c = '*' ∨ c = '+' then
      match wsRun rest with
      | some (run, rest2) => some (run.getLast? = some '\n', rest2)
      | none => none
    else none
  | [] => none

def orderedMatch (l : List Char) : Option (Bool × List Char) :=
  let digits := l.takeWhile (·.isDigit)
  if digits.length ≥ 1 then
    match l.drop digits.length with
    | '.' :: rest =>
      match wsRun rest with
      | some (run, rest2) => some (run.getLast? = some '\n', rest2)
      | none => none
    | _ => none
  else none

/-- Rule `^---+$` (three or more dashes alone on a line; `$` is
zero-width, so the newline is not consumed and the position after the
match is not a line start). -/
def hrMatch (l : List Char) : Option (Bool × List Char) :=
  let dashes := l.takeWhile (· == '-')
  if dashes.length ≥ 3 then
    match l.drop dashes.length with
    | [] => some (false, [])
    | '\n' :: rest => some (false, '\n' :: rest)
    | _ => none
  else none

/-- Generic scanner for the multiline (`^`-anchored) rules: the matcher
is tried only at line starts, and a match is replaced by the empty
string. -/
def scanLineStartsAux (m : List Char → Option (Bool × List Char)) :
    Nat → Bool → List Char → List Char
  | 0, _, l => l
  | _ + 1, _, [] => []
  | fuel + 1, atStart, c :: cs =>
    if atStart then
      match m (c :: cs) with
      | some (atStart2, rest) => scanLineStartsAux m fuel atStart2 rest
      | none => c :: scanLineStartsAux m fuel (c = '\n') cs
    else c :: scanLineStartsAux m fuel (c = '\n') cs

def scanLineStarts (m : List Char → Option (Bool × List Char))
    (l : List Char) : List Char :=
  scanLineStartsAux m l.length true l

def stripHeading (l : List Char) : List Char := scanLineStarts headingMatch l
def stripQuote (l : List Char) : List Char := scanLineStarts quoteMatch l
def stripBullet (l : List Char) : List Char := scanLineStarts bulletMatch l
def stripOrdered (l : List Char) : List Char := scanLineStarts orderedMatch l
def stripHr (l : List Char) : List Char := scanLineStarts hrMatch l

/-- Rule removing the literal entity `&nbsp;`. -/
def stripNbspAux : Nat → List Char → List Char
  | 0, l => l
  | _ + 1, [] => []
  | fuel + 1, '&' :: rest =>
    if List.isPrefixOf "nbsp;".data rest then stripNbspAux fuel (rest.drop 5)
    else '&' :: stripNbspAux fuel rest
  | fuel + 1, c :: cs => c :: stripNbspAux fuel cs

def stripNbsp (l : List Char) : List Char := stripNbspAux l.length l

/-- Rule `\n{3,} → \n\n` (collapse runs of three or more newlines). -/
def collapseNlAux : Nat → List Char → List Char
  | 0, l => l
  | _ + 1, [] => []
  | fuel + 1, '\n' :: '\n' :: '\n' :: rest =>
    '\n' :: '\n' :: collapseNlAux fuel (rest.dropWhile (· == '\n'))
  | fuel + 1, c :: cs => c :: collapseNlAux fuel cs

def collapseNl (l : List Char) : List Char := collapseNlAux l.length l

/-- `stripMarkdown` from `server/src/routes/assistant.ts`: the twelve
replace rules applied in source order. -/
def stripMarkdownL (l : List Char) : List Char :=
  collapseNl (stripNbsp (stripHr (stripOrdered (stripBullet (stripQuote
    (stripHeading (stripCode (stripStrike (stripItalic
      (stripBold (stripLinks l)))))))))))

/-- String wrapper matching the source signature. -/
def stripMarkdown (s : String) : String := ⟨stripMarkdownL s.data⟩

/-! ## Text-Anchoring Engine (client, `useHighlights` extension file)

ProseMirror documents are trees: block nodes contain child nodes, text
nodes are leaves carrying their characters.  The editor is configured
with StarterKit nodes (paragraphs, headings, blockquotes, lists), all of
which are block nodes with children; leaf atoms (horizontal rule, hard
break) do not occur in the documents the theorems evaluate.  ProseMirror
position accounting: a text node spans `length` positions, a block node
spans `2 + content size` (open and close token); the document's own
content starts at position 0, a block's content starts one past the
block's position.  `descendants` enumerates all nodes depth-first in
document order, passing each node's position. -/

mutual
inductive PMNode : Type where
  | text : List Char → PMNode
  | block : PMForest → PMNode
inductive PMForest : Type where
  | nil : PMForest
  | cons : PMNode → PMForest → PMForest
end

mutual
def nodeSize : PMNode → Nat
  | .text s => s.length
  | .block f => 2 + forestSize f
def forestSize : PMForest → Nat
  | .nil => 0
  | .cons n f => nodeSize n + forestSize f
end

/-- One `descendants` callback visit: a text node with its characters
and position, or a block node with its position. -/
inductive Visit : Type where
  | vtext : List Char → Nat → Visit
  | vblock : Nat → Visit

mutual
def nodeVisits : PMNode → Nat → List Visit
  | .text s, p => [.vtext s p]
  | .block f, p => .vblock p :: forestVisits f (p + 1)
def forestVisits : PMForest → Nat → List Visit
  | .nil, _ => []
  | .cons n f, p => nodeVisits n p ++ forestVisits f (p + nodeSize n)
end

/-- The `doc.descendants` enumeration: the document's children start at
position 0 and the root itself is not visited. -/
def docVisits (d : PMForest) : List Visit := forestVisits d 0

/-- Contribution of one visit to the flat text (`getDocFlatText`'s loop
body: text nodes push their text, block nodes at position > 0 push a
newline). -/
def visitText : Visit → List Char
  | .vtext s _ => s
  | .vblock p => if 0 < p then ['\n'] else []

/-- `getDocFlatText` from the highlights extension file. -/
def getDocFlatTextL (d : PMForest) : List Char :=
  ((docVisits d).map visitText).flatten

def getDocFlatText (d : PMForest) : String := ⟨getDocFlatTextL d⟩

structure OffsetResult where
  found : Bool
  pos : Nat
deriving DecidableEq, Repr

/-- The `doc.descendants` walk inside `flatOffsetToPos`, with the early
exit on `result.found` expressed by returning at the first matching text
run. -/
def resolveAux : List Visit → Nat → Nat → OffsetResult
  | [], _, _ => { found := false, pos := 0 }
  | .vtext s p :: rest, curr, off =>
    if curr ≤ off ∧ off ≤ curr + s.length then
      { found := true, pos := p + (off - curr) }
    else resolveAux rest (curr + s.length) off
  | .vblock p :: rest, curr, off =>
    resolveAux rest (if 0 < p then curr + 1 else curr) off

/-- `flatOffsetToPos` from the highlights extension file. -/
def flatOffsetToPos (d : PMForest) (flatOffset : Nat) : OffsetResult :=
  resolveAux (docVisits d) 0 flatOffset

/-- JS `String.prototype.indexOf`: index of the first occurrence, `none`
for JS `-1`; the empty pattern matches at 0. -/
def firstIdxAux : List Char → List Char → Nat → Option Nat
  | l, pat, acc =>
    if List.isPrefixOf pat l then some acc
    else
      match l with
      | [] => none
      | _ :: tl => firstIdxAux tl pat (acc + 1)

def firstIdx (l pat : List Char) : Option Nat := firstIdxAux l pat 0

/-- `HIGHLIGHT_CLASSES[type]` with the `|| 'highlight-question'`
fallback used when building the decoration. -/
def highlightClass (ty : String) : String :=
  if ty = "question" then "highlight-question"
  else if ty = "suggestion" then "highlight-suggestion"
  else if ty = "edit" then "highlight-edit"
  else if ty = "voice" then "highlight-voice"
  else if ty = "weakness" then "highlight-weakness"
  else if ty = "evidence" then "highlight-evidence"
  else if ty = "wordiness" then "highlight-wordiness"
  else if ty = "factcheck" then "highlight-factcheck"
  else "highlight-question"

/-- A highlight as the client plugin sees it. -/
structure ClientHighlight where
  id : String
  type : String
  matchText : String
  dismissed : Bool
deriving DecidableEq, Repr

/-- An inline decoration as built by the plugin's `apply`. -/
structure Deco where
  dFrom : Nat
  dTo : Nat
  cls : String
  hid : String
deriving DecidableEq, Repr

/-- The per-highlight placement logic of the plugin's `apply`:
first-occurrence `indexOf` on the flat text, then `flatOffsetToPos` for
both ends, skipping unresolved, zero-length or inverted ranges. -/
def locateMatch (d : PMForest) (matchText : List Char) : Option (Nat × Nat) :=
  match firstIdx (getDocFlatTextL d) matchText with
  | none => none
  | some idx =>
    let fr := flatOffsetToPos d idx
    let tr := flatOffsetToPos d (idx + matchText.length)
    if fr.found = false ∨ tr.found = false then none
    else if tr.pos ≤ fr.pos then none
    else some (fr.pos, tr.pos)

/-- The plugin `apply` loop over the current highlights: dismissed and
unplaceable highlights are skipped silently, the rest become inline
decorations. -/
def applyHighlights (d : PMForest) : List ClientHighlight → List Deco
  | [] => []
  | h :: t =>
    if h.dismissed then applyHighlights d t
    else
      match locateMatch d h.matchText.data with
      | none => applyHighlights d t
      | some (f, t2) => ⟨f, t2, highlightClass h.type, h.id⟩ :: applyHighlights d t

/-- Concatenated text of a forest of text runs (helper for
`nodeMarkdown`). -/
def forestText : PMForest → List Char
  | .nil => []
  | .cons (.text s) f => s ++ forestText f
  | .cons (.block _) f => forestText f

/-- Modelled from the spec: the editor's markdown serialization
(`ed.getMarkdown()` of the external tiptap Markdown extension, the
`toMarkdown` of spec section 8), restricted to the fragment the theorems
evaluate — documents whose top-level blocks are plain paragraphs of text
runs.  A paragraph serializes to its concatenated text and top-level
blocks are separated by a blank line. -/
def nodeMarkdown : PMNode → List Char
  | .text s => s
  | .block f => forestText f

/-- Modelled from the spec: blank-line separation of serialized
top-level blocks (see `nodeMarkdown`). -/
def docMarkdown : PMForest → List Char
  | .nil => []
  | .cons n .nil => nodeMarkdown n
  | .cons n f => nodeMarkdown n ++ '\n' :: '\n' :: docMarkdown f

/-- The two-paragraph document `doc(paragraph("A"), paragraph("B"))`,
the rendered form of the markdown source `"A\n\nB"`. -/
def paraA : PMNode := .block (.cons (.text "A".data) .nil)
def paraB : PMNode := .block (.cons (.text "B".data) .nil)
def twoParaDoc : PMForest := .cons paraA (.cons paraB .nil)

/-- A document whose flat text ends in a block-separator newline:
`doc(paragraph("A"), paragraph())`. -/
def trailingEmptyParaDoc : PMForest :=
  .cons paraA (.cons (.block .nil) .nil)

/-! ## Stream Transport — client SSE decoder (`readAssistantStream`)

The decoder is parametric in the JSON parser (`JSON.parse` is external):
`parse` returns `none` exactly where `JSON.parse` would throw.  Chunks
are character lists; `TextDecoder` with `stream: true` reassembles UTF-8
across reads, so the character level is the faithful abstraction of the
byte stream. -/

/-- One step of `buffer.split('\n')` over one character: either close
the current line or extend it. -/
def feedChar : List (List Char) × List Char → Char →
    List (List Char) × List Char
  | (ls, cur), c => if c = '\n' then (ls ++ [cur], []) else (ls, cur ++ [c])

/-- `buffer.split('\n')` followed by `buffer = lines.pop() || ''`:
the complete lines and the retained trailing partial line. -/
def splitComplete (buf chunk : List Char) : List (List Char) × List Char :=
  (buf ++ chunk).foldl feedChar ([], [])

/-- A dispatched callback of `readAssistantStream`. -/
inductive SseCallback (P : Type) : Type where
  | onText : P → SseCallback P
  | onHighlight : P → SseCallback P
  | onSource : P → SseCallback P
  | onToolStatus : P → SseCallback P
  | onDone : P → SseCallback P
  | onError : P → SseCallback P
deriving DecidableEq

/-- Decoder state: retained partial line, current event name, callbacks
dispatched so far.  The initial event name is `'text'`. -/
structure DecState (P : Type) where
  buffer : List Char
  currentEvent : List Char
  events : List (SseCallback P)
deriving DecidableEq

def initDecState (P : Type) : DecState P := ⟨[], "text".data, []⟩

/-- The if/else dispatch on the current event name; data lines seen
under any other event name are dropped (there is no else branch in the
source). -/
def dispatchEvent {P : Type} (name : List Char) (p : P) :
    List (SseCallback P) :=
  if name = "text".data then [.onText p]
  else if name = "highlight".data then [.onHighlight p]
  else if name = "source".data then [.onSource p]
  else if name = "tool_status".data then [.onToolStatus p]
  else if name = "done".data then [.onDone p]
  else if name = "error".data then [.onError p]
  else []

/-- Processing of one complete line: an `event: ` header updates the
current event name, a `data: ` line is JSON-parsed and dispatched
(parse failures are skipped), anything else is ignored. -/
def processLine {P : Type} (parse : List Char → Option P)
    (st : DecState P) (line : List Char) : DecState P :=
  if List.isPrefixOf "event: ".data line then
    { st with currentEvent := jsTrim (line.drop 7) }
  else if List.isPrefixOf "data: ".data line then
    match parse (line.drop 6) with
    | some p => { st with events := st.events ++ dispatchEvent st.currentEvent p }
    | none => st
  else st

/-- One `reader.read()` iteration of `readAssistantStream`: append the
chunk to the buffer, split off the complete lines, retain the partial
tail, process the complete lines in order. -/
def feedSse {P : Type} (parse : List Char → Option P)
    (st : DecState P) (chunk : List Char) : DecState P :=
  { ((splitComplete st.buffer chunk).1.foldl (processLine parse) st) with
    buffer := (splitComplete st.buffer chunk).2 }

/-- The whole read loop of `readAssistantStream` over a sequence of
chunks (at stream end the retained partial line is discarded, as in the
source). -/
def readAssistantStream {P : Type} (parse : List Char → Option P)
    (chunks : List (List Char)) : DecState P :=
  chunks.foldl (feedSse parse) (initDecState P)

/-! ## Usage Gate — `checkMessageLimit` (`middleware/usageGate.ts`)

Timestamps are epoch milliseconds (`Int`); `new Date(ts) > new Date()`
is `now < ts`.  The counting queries are external; their results enter
as an oracle (`UsageCounts`), one slot per tier branch, each `Option`
modelling a null `data` resolved by the middleware's `?? 0`.  The
`catch`/503 path cannot occur in this oracle model (the Supabase client
reports errors in-band). -/

/-- Modelled from the spec: the constants of `lib/limits.ts` (the file
itself is not among the provided sources).  Free daily limit 5 is the
spec's quota scenario; 300/month is the middleware's own upgrade
message.  No theorem depends on these values. -/
def FREE_DAILY_LIMIT : Nat := 5

/-- Modelled from the spec (see `FREE_DAILY_LIMIT`). -/
def PRO_MONTHLY_LIMIT : Nat := 300

/-- Modelled from the spec (see `FREE_DAILY_LIMIT`). -/
def TRIAL_MONTHLY_LIMIT : Nat := 300

structure UserProfile where
  plan : String
  subscription_status : String
  billing_cycle_anchor : Option Int
  cancel_at_period_end : Bool
  current_period_end : Option Int
  trial_expires_at : Option Int
deriving DecidableEq, Repr

/-- The defaults used when the profile row is missing (auto-created
free profile). -/
def defaultProfile : UserProfile :=
  ⟨"free", "none", none, false, none, none⟩

/-- Oracle for the external counting queries. -/
structure UsageCounts where
  proCount : Option Nat
  trialCount : Option Nat
  freeCount : Option Nat
deriving DecidableEq, Repr

/-- The structured 429 body of the usage gate. -/
structure LimitRejectBody where
  error : String
  code : String
  message : String
  plan : String
  used : Nat
  limit : Nat
  isTrial : Bool
  trialExpiresAt : Option Int
deriving DecidableEq, Repr

/-- `req.usageInfo` attached on pass. -/
structure UsageInfo where
  plan : String
  used : Nat
  limit : Nat
  remaining : Nat
  subscriptionStatus : String
  cancelAtPeriodEnd : Bool
  currentPeriodEnd : Option Int
  isTrial : Bool
  trialExpiresAt : Option Int
deriving DecidableEq, Repr

inductive GateResult where
  | reject : Nat → LimitRejectBody → GateResult
  | proceed : UsageInfo → GateResult
deriving DecidableEq, Repr

/-- `isPro`: pro plan with an acceptable subscription status. -/
def gateIsPro (p : UserProfile) : Bool :=
  p.plan = "pro" &&
    (p.subscription_status = "active" || p.subscription_status = "trialing" ||
     p.subscription_status = "past_due")

/-- `isActiveTrial`: not pro, with an unexpired trial timestamp. -/
def gateIsActiveTrial (p : UserProfile) (now : Int) : Bool :=
  !gateIsPro p &&
    (match p.trial_expires_at with
     | some t => now < t
     | none => false)

/-- The `used` count of the caller's tier (`data ?? 0`). -/
def gateUsed (p : UserProfile) (now : Int) (counts : UsageCounts) : Nat :=
  if gateIsPro p then counts.proCount.getD 0
  else if gateIsActiveTrial p now then counts.trialCount.getD 0
  else counts.freeCount.getD 0

/-- The `limit` of the caller's tier. -/
def gateLimit (p : UserProfile) (now : Int) : Nat :=
  if gateIsPro p then PRO_MONTHLY_LIMIT
  else if gateIsActiveTrial p now then TRIAL_MONTHLY_LIMIT
  else FREE_DAILY_LIMIT

/-- The structured rejection code of the caller's tier. -/
def gateCode (p : UserProfile) (now : Int) : String :=
  if gateIsPro p then "MONTHLY_LIMIT_EXCEEDED"
  else if gateIsActiveTrial p now then "TRIAL_LIMIT_EXCEEDED"
  else "DAILY_LIMIT_EXCEEDED"

/-- The human-readable rejection message of the caller's tier. -/
def gateMessage (p : UserProfile) (now : Int) : String :=
  if gateIsPro p then
    "You've used all " ++ Nat.repr (gateLimit p now) ++
      " messages for this billing period."
  else if gateIsActiveTrial p now then
    "You've used all " ++ Nat.repr (gateLimit p now) ++
      " trial messages for this month."
  else
    "You've used all " ++ Nat.repr (gateLimit p now) ++
      " messages for today. Upgrade to Pro for 300/month."

def checkMessageLimit (profile : Option UserProfile) (now : Int)
    (counts : UsageCounts) : GateResult :=
  let p := profile.getD defaultProfile
  let used := gateUsed p now counts
  let limit := gateLimit p now
  if used ≥ limit then
    .reject 429
      ⟨"Message limit reached", gateCode p now, gateMessage p now, p.plan,
       used, limit, gateIsActiveTrial p now, p.trial_expires_at⟩
  else
    .proceed
      ⟨p.plan, used, limit, limit - used, p.subscription_status,
       p.cancel_at_period_end, p.current_period_end, gateIsActiveTrial p now,
       p.trial_expires_at⟩

/-! ## Conversation Orchestrator — `router.post('/chat')` (`routes/assistant.ts`)

The handler is embedded as an interpreter producing a chronological
trace of observable actions (SSE frames written, database writes, model
calls, MCP gateway calls, warnings logged).  External effects enter as
oracles in `ChatEnv`: the JSON parser (`none` where `JSON.parse`
throws), the MCP manager, and the clock (`timeAt k` is `Date.now()` at
the emission of the k-th highlight of the turn).  The scripted model
behaviour is a list of per-round outcomes; a round beyond the script is
a failing model call.  Arguments of the external model call (system
string, max tokens, temperature) and the `done` frame's random
`messageId` are not observable by any claim and are omitted.  The
parallel MCP calls of one round (`Promise.all`) are serialized in block
order; no claim depends on their relative order. -/

structure HighlightData where
  id : String
  type : String
  matchText : String
  comment : String
  suggestedEdit : Option String
deriving DecidableEq, Repr

structure SourceData where
  url : String
  title : String
deriving DecidableEq, Repr

/-- A stored conversation message (`AssistantMessage` in the source). -/
structure ChatMsg where
  role : String
  content : String
  highlights : Option (List HighlightData)
  sources : Option (List SourceData)
  timestamp : String
deriving DecidableEq, Repr

/-- A parsed tool input object (the fields the handler reads; absent
object fields are the empty string / `none`). -/
structure ToolInput where
  type : String
  matchText : String
  comment : String
  suggestedEdit : Option String
  url : String
  title : String
deriving DecidableEq, Repr

structure McpResult where
  content : String
  isError : Bool
deriving DecidableEq, Repr

/-- An accumulated `tool_use` content block. -/
structure CBlock where
  id : String
  name : String
  input : ToolInput
deriving DecidableEq, Repr

/-- A `tool_result` block for the next round (`is_error` is set only
for MCP results, as in the source). -/
structure ToolResult where
  tool_use_id : String
  content : String
  is_error : Option Bool
deriving DecidableEq, Repr

/-- An SSE frame written by the handler. -/
inductive SseEvent where
  | text : String → SseEvent
  | highlight : HighlightData → SseEvent
  | source : SourceData → SseEvent
  | toolStatus : (tool server status : String) → SseEvent
  | done : SseEvent
  | error : SseEvent
deriving DecidableEq, Repr

inductive DbWrite where
  | convUpsert : List ChatMsg → DbWrite
  | projHighlightsUpdate : List HighlightData → DbWrite
  | usageInsert : DbWrite
deriving DecidableEq, Repr

/-- An observable step of the handler, in chronological order. -/
inductive Action where
  | emit : SseEvent → Action
  | dbWrite : DbWrite → Action
  | modelCall : Action
  | mcpCall : String → Action
  | logWarn : String → Action
  | nextRound : (blockIds resultIds : List String) → Action
  | streamEnd : Action
deriving DecidableEq, Repr

/-- One event of the streamed model response (the cases the handler
inspects). -/
inductive StreamEv where
  | blockStartText : StreamEv
  | blockStartTool : (name id : String) → StreamEv
  | textDelta : String → StreamEv
  | inputJsonDelta : String → StreamEv
  | blockStop : StreamEv
  | messageDelta : Option String → StreamEv
deriving DecidableEq, Repr

/-- One scripted model round: the call either throws or yields a
stream of events. -/
inductive RoundOutcome where
  | fail : RoundOutcome
  | stream : List StreamEv → RoundOutcome
deriving DecidableEq, Repr

/-- The oracles of one request. -/
structure ChatEnv where
  parse : String → Option ToolInput
  isMcpTool : String → Bool
  serverName : String → String
  callTool : String → ToolInput → McpResult
  timeAt : Nat → Nat
  nowIso : String

/-- The id template literal `h${++highlightCounter}-${Date.now()}`
(decimal renderings of both numbers). -/
def mkHighlightId (counter timestamp : Nat) : String :=
  "h" ++ Nat.repr counter ++ "-" ++ Nat.repr timestamp

/-- `input.suggestedEdit || undefined` (JS falsiness of the empty
string). -/
def orUndef : Option String → Option String
  | some t => if t = "" then none else some t
  | none => none

/-- Turn-level accumulation (`fullTextResponse`, `highlights`,
`sources`, `highlightCounter`). -/
structure TurnSt where
  fullText : String
  highlights : List HighlightData
  sources : List SourceData
  hlCounter : Nat
deriving DecidableEq, Repr

def initTurnSt : TurnSt := ⟨"", [], [], 0⟩

/-- Round-level accumulation (`currentToolName`, `currentToolInput`,
`currentToolId`, `contentBlocks`, `stopReason`). -/
structure RoundSt where
  curName : String
  curInput : String
  curId : String
  blocks : List CBlock
  stopReason : Option String
deriving DecidableEq, Repr

def initRoundSt : RoundSt := ⟨"", "", "", [], none⟩

/-- Result of a computation that can throw into the route's outer
`catch`; both alternatives carry the actions performed so far. -/
inductive StepRes (α : Type) where
  | ok : α → List Action → StepRes α
  | failed : List Action → StepRes α
deriving DecidableEq, Repr

/-- Processing of one stream event (the `for await` body).  On
`content_block_stop` with a pending tool name and nonempty accumulated
input, the handler dispatches on the tool identity; the final
`JSON.parse(currentToolInput)` of the block push is not guarded, so an
unparseable input throws after the branch-specific effects. -/
def processEv (env : ChatEnv) (t : TurnSt) (r : RoundSt) :
    StreamEv → StepRes (TurnSt × RoundSt)
  | .blockStartText => .ok (t, r) []
  | .blockStartTool name id =>
    .ok (t, { r with curName := name, curId := id, curInput := "" }) []
  | .textDelta s =>
    .ok ({ t with fullText := t.fullText ++ s }, r) [.emit (.text s)]
  | .inputJsonDelta s =>
    .ok (t, { r with curInput := r.curInput ++ s }) []
  | .messageDelta sr => .ok (t, { r with stopReason := sr }) []
  | .blockStop =>
    if r.curName ≠ "" ∧ r.curInput ≠ "" then
      match env.parse r.curInput with
      | none =>
        if r.curName = "add_highlight" then
          .failed [.logWarn "Failed to parse highlight tool input"]
        else if r.curName = "cite_source" then
          .failed [.logWarn "Failed to parse cite_source tool input"]
        else if env.isMcpTool r.curName then
          .failed [.emit (.toolStatus r.curName (env.serverName r.curName) "running")]
        else .failed []
      | some inp =>
        let (t2, acts) :=
          if r.curName = "add_highlight" then
            let c := t.hlCounter + 1
            let h : HighlightData :=
              { id := mkHighlightId c (env.timeAt c), type := inp.type,
                matchText := inp.matchText, comment := inp.comment,
                suggestedEdit := orUndef inp.suggestedEdit }
            ({ t with highlights := t.highlights ++ [h], hlCounter := c },
             [.emit (.highlight h)])
          else if r.curName = "cite_source" then
            ({ t with sources := t.sources ++ [⟨inp.url, inp.title⟩] },
             [.emit (.source ⟨inp.url, inp.title⟩)])
          else if env.isMcpTool r.curName then
            (t, [.emit (.toolStatus r.curName (env.serverName r.curName) "running")])
          else (t, [])
        .ok (t2, { r with curName := "", curInput := "",
                          blocks := r.blocks ++ [⟨r.curId, r.curName, inp⟩] }) acts
    else .ok (t, r) []

/-- The `for await` loop over one round's stream events. -/
def processRound (env : ChatEnv) :
    TurnSt → RoundSt → List StreamEv → StepRes (TurnSt × RoundSt)
  | t, r, [] => .ok (t, r) []
  | t, r, e :: es =>
    match processEv env t r e with
    | .failed acts => .failed acts
    | .ok (t2, r2) acts =>
      match processRound env t2 r2 es with
      | .failed acts2 => .failed (acts ++ acts2)
      | .ok s acts2 => .ok s (acts ++ acts2)

/-- The tool-result construction over the round's `tool_use` blocks
(local tools acknowledge, everything else goes to the MCP gateway). -/
def buildToolResults (env : ChatEnv) : List CBlock → List ToolResult × List Action
  | [] => ([], [])
  | b :: bs =>
    if b.name = "add_highlight" then
      (⟨b.id, "Highlight added successfully.", none⟩ :: (buildToolResults env bs).1,
       (buildToolResults env bs).2)
    else if b.name = "cite_source" then
      (⟨b.id, "Source cited: " ++
          (if b.input.title = "" then b.input.url else b.input.title), none⟩ ::
         (buildToolResults env bs).1,
       (buildToolResults env bs).2)
    else
      (⟨b.id, (env.callTool b.name b.input).content,
          some (env.callTool b.name b.input).isError⟩ :: (buildToolResults env bs).1,
       Action.mcpCall b.name ::
         Action.emit (.toolStatus b.name (env.serverName b.name)
             (if (env.callTool b.name b.input).isError then "error" else "done")) ::
           (buildToolResults env bs).2)

def MAX_TOOL_ROUNDS : Nat := 10

/-- The `while (continueLoop)` tool-use loop.  Each iteration performs
one model call; a `tool_use` stop increments the round counter, stops
with a logged warning at the cap, and otherwise enqueues the tool
results for the next round (`nextRound` records the block ids and the
result ids sent back).  `none` means the turn threw into the outer
`catch`. -/
def runLoop (env : ChatEnv) :
    TurnSt → Nat → List RoundOutcome → List Action × Option TurnSt
  | _, _, [] => ([.modelCall], none)
  | t, toolRound, ro :: rest =>
    match ro with
    | .fail => ([.modelCall], none)
    | .stream evs =>
      match processRound env t initRoundSt evs with
      | .failed acts => (.modelCall :: acts, none)
      | .ok (t2, r2) acts =>
        if r2.stopReason = some "tool_use" then
          if toolRound + 1 ≥ MAX_TOOL_ROUNDS then
            (.modelCall :: acts ++ [.logWarn "Max tool rounds reached - stopping loop"],
             some t2)
          else
            (.modelCall :: acts ++ (buildToolResults env r2.blocks).2 ++
               Action.nextRound (r2.blocks.map (·.id))
                   ((buildToolResults env r2.blocks).1.map (·.tool_use_id)) ::
                 (runLoop env t2 (toolRound + 1) rest).1,
             (runLoop env t2 (toolRound + 1) rest).2)
        else (.modelCall :: acts, some t2)

/-- `existingMessages.slice(-30)`. -/
def lastN {α : Type} (n : Nat) (l : List α) : List α := l.drop (l.length - n)

/-- The highlights merge of the route's success path: read the stored
list, concatenate the turn's new highlights, write the result back
(a read-modify-write in the route, no cap). -/
def routeMergeHighlights (existing newHl : List HighlightData) :
    List HighlightData :=
  existing ++ newHl

/-- The `append_highlights` RPC of migration `00009_audit_remediation`:
append, and if over 200 keep the 200 elements with lexicographically
greatest ids (`order by elem->>'id' desc limit 200`). -/
def append_highlights (existing newHl : List HighlightData) :
    List HighlightData :=
  let merged := existing ++ newHl
  if merged.length > 200 then
    (merged.mergeSort (fun a b => decide (¬ a.id < b.id))).take 200
  else merged

/-- The request-level inputs of the handler (after `requireAuth` and
schema validation; `ownedProject` is the `getOwnedProject` outcome). -/
structure HandlerInput where
  message : String
  existingMessages : List ChatMsg
  projHighlights : List HighlightData
  ownedProject : Bool
  behavior : List RoundOutcome

inductive RouteResp where
  | notFound : RouteResp
  | sse : RouteResp
deriving DecidableEq, Repr

structure ChatOutcome where
  response : RouteResp
  trace : List Action
  finalTurn : Option TurnSt
  success : Bool
deriving DecidableEq, Repr

/-- The chat route handler: 404 on unowned project; otherwise persist
the user message, run the tool-use loop, and either finish (done frame,
assistant upsert, highlight merge, usage insert) or catch (error frame,
nothing persisted beyond the user message). -/
def chatUserMsg (env : ChatEnv) (inp : HandlerInput) : ChatMsg :=
  ⟨"user", inp.message, none, none, env.nowIso⟩

/-- `[...existingMessages.slice(-30), userMessage]`. -/
def chatAllMessages (env : ChatEnv) (inp : HandlerInput) : List ChatMsg :=
  lastN 30 inp.existingMessages ++ [chatUserMsg env inp]

/-- The assistant message persisted on success. -/
def chatAssistantMsg (env : ChatEnv) (t : TurnSt) : ChatMsg :=
  ⟨"assistant", t.fullText,
   if t.highlights.length > 0 then some t.highlights else none,
   if t.sources.length > 0 then some t.sources else none,
   env.nowIso⟩

/-- The success-path tail of the trace: done frame, assistant upsert,
highlight merge when any highlights were emitted, usage insert, end. -/
def chatSuccessTail (env : ChatEnv) (inp : HandlerInput) (t : TurnSt) :
    List Action :=
  Action.emit .done ::
    Action.dbWrite
        (.convUpsert (chatAllMessages env inp ++ [chatAssistantMsg env t])) ::
      (if t.highlights.length > 0 then
         [Action.dbWrite
            (.projHighlightsUpdate
              (routeMergeHighlights inp.projHighlights t.highlights))]
       else []) ++
        [.dbWrite .usageInsert, .streamEnd]

def chatHandler (env : ChatEnv) (inp : HandlerInput) : ChatOutcome :=
  if inp.ownedProject = false then ⟨.notFound, [], none, false⟩
  else
    match (runLoop env initTurnSt 0 inp.behavior).2 with
    | none =>
      ⟨.sse,
       Action.dbWrite (.convUpsert (chatAllMessages env inp)) ::
         (runLoop env initTurnSt 0 inp.behavior).1 ++ [.emit .error, .streamEnd],
       none, false⟩
    | some t =>
      ⟨.sse,
       Action.dbWrite (.convUpsert (chatAllMessages env inp)) ::
         (runLoop env initTurnSt 0 inp.behavior).1 ++ chatSuccessTail env inp t,
       some t, true⟩

inductive EndpointResult where
  | rejected : Nat → LimitRejectBody → EndpointResult
  | handled : ChatOutcome → EndpointResult
deriving DecidableEq, Repr

/-- The route pipeline `requireAuth → checkMessageLimit → handler`:
a gate rejection ends the request before the handler body runs. -/
def chatEndpoint (profile : Option UserProfile) (now : Int)
    (counts : UsageCounts) (env : ChatEnv) (inp : HandlerInput) :
    EndpointResult :=
  match checkMessageLimit profile now counts with
  | .reject status body => .rejected status body
  | .proceed _ => .handled (chatHandler env inp)

/-- Observable actions of an endpoint result (a gate rejection performs
none). -/
def endpointTrace : EndpointResult → List Action
  | .rejected _ _ => []
  | .handled o => o.trace

/-- Count of model calls in a trace. -/
def countModelCalls (tr : List Action) : Nat :=
  tr.countP fun a => a = Action.modelCall

/-- Count of tool-result rounds (results sent back to the model) in a
trace. -/
def countResultRounds (tr : List Action) : Nat :=
  tr.countP fun a =>
    match a with
    | .nextRound _ _ => true
    | _ => false

/-- The payload of the first stored-highlights update in a trace. -/
def firstProjUpdate : List Action → Option (List HighlightData)
  | [] => none
  | .dbWrite (.projHighlightsUpdate l) :: _ => some l
  | _ :: rest => firstProjUpdate rest

/-- The payload of the last conversation upsert in a trace (the stored
conversation after the request). -/
def lastConvUpsert : List Action → Option (List ChatMsg)
  | [] => none
  | .dbWrite (.convUpsert l) :: rest =>
    match lastConvUpsert rest with
    | some l2 => some l2
    | none => some l
  | _ :: rest => lastConvUpsert rest

/-! ## Proof scaffolding for the anchoring engine

`WFVisits V c d` states that the visit list `V` is consistent with the
accumulated flat offset `c` and that every text run lies at least `d`
positions ahead of the accumulated offset (`d` is the current
offset-to-position drift, which document order makes non-decreasing).
`curAfter`/`drAfter` compute the accumulated offset and drift after a
visit list. -/

def curAfter : List Visit → Nat → Nat
  | [], c => c
  | .vtext s _ :: r, c => curAfter r (c + s.length)
  | .vblock p :: r, c => curAfter r (if 0 < p then c + 1 else c)

def drAfter : List Visit → Nat → Nat → Nat
  | [], _, d => d
  | .vtext s p :: r, c, _ => drAfter r (c + s.length) (p - c)
  | .vblock p :: r, c, d => drAfter r (if 0 < p then c + 1 else c) d

def WFVisits : List Visit → Nat → Nat → Prop
  | [], _, _ => True
  | .vtext s p :: r, c, d => c + d ≤ p ∧ WFVisits r (c + s.length) (p - c)
  | .vblock p :: r, c, d =>
    (0 < p → c + d ≤ p) ∧ WFVisits r (if 0 < p then c + 1 else c) d

/-! ## Concrete instances used by the theorems -/

/-- A one-paragraph document `doc(paragraph("A"))`. -/
def oneParaDoc : PMForest := .cons paraA .nil

/-- A well-formed `add_highlight` input as the model would send it. -/
def sampleInput : ToolInput := ⟨"question", "Climate", "Why?", none, "", ""⟩

/-- An `add_highlight` input whose type is outside the 8 allowed kinds. -/
def bogusInput : ToolInput := ⟨"bogus", "Climate", "Why?", none, "", ""⟩

/-- A test oracle: the literal `"J"` parses to the given input, nothing
else parses, no MCP tools, a constant clock. -/
def mkTestEnv (inp : ToolInput) (time : Nat) : ChatEnv :=
  ⟨fun s => if s = "J" then some inp else none, fun _ => false, fun _ => "",
   fun _ _ => ⟨"", false⟩, fun _ => time, "2026-01-01T00:00:00.000Z"⟩

/-- One round emitting one highlight, then a natural stop. -/
def oneHighlightRound : List StreamEv :=
  [.blockStartTool "add_highlight" "tu1", .inputJsonDelta "J", .blockStop,
   .messageDelta (some "end_turn")]

/-- One round emitting one highlight and stopping with `tool_use`. -/
def toolUseRound : List StreamEv :=
  [.blockStartTool "add_highlight" "tu1", .inputJsonDelta "J", .blockStop,
   .messageDelta (some "tool_use")]

/-- A round containing a `tool_use` block that completes with empty
accumulated input, followed by a well-formed `cite_source` block, and a
`tool_use` stop. -/
def emptyInputRound : List StreamEv :=
  [.blockStartTool "add_highlight" "tuEmpty", .blockStop,
   .blockStartTool "cite_source" "tuOK", .inputJsonDelta "J", .blockStop,
   .messageDelta (some "tool_use")]

/-- A dummy stored highlight (for the 200-entry stored list). -/
def storedHl : HighlightData := ⟨"h0-0", "question", "x", "y", none⟩

/-- The action list of a `StepRes`. -/
def stepActs {A : Type} : StepRes A → List Action
  | .ok _ acts => acts
  | .failed acts => acts

/-- Actions that stream-event processing and tool-result building can
produce (frames other than `done`/`error`, warnings, gateway calls). -/
def streamAct : Action → Bool
  | .emit (.text _) => true
  | .emit (.highlight _) => true
  | .emit (.source _) => true
  | .emit (.toolStatus _ _ _) => true
  | .logWarn _ => true
  | .mcpCall _ => true
  | _ => false

/-- Actions the tool-use loop can produce. -/
def loopAct : Action → Bool
  | .modelCall => true
  | .nextRound _ _ => true
  | a => streamAct a

def isConvUpsert : Action → Bool
  | .dbWrite (.convUpsert _) => true
  | _ => false

def isUsageInsert : Action → Bool
  | .dbWrite .usageInsert => true
  | _ => false

def isErrorEmit : Action → Bool
  | .emit .error => true
  | _ => false

/-- The ids of a turn's emitted highlights, in emission order. -/
def turnIds (t : TurnSt) : List String := t.highlights.map (·.id)

/-- Invariant tying emitted ids to the highlight counter: the ids are
distinct and no id with a counter component above the current counter
has been emitted. -/
def IdInv (t : TurnSt) : Prop :=
  (turnIds t).Nodup ∧
    ∀ c ts, t.hlCounter < c → mkHighlightId c ts ∉ turnIds t

/-- The 8 allowed highlight kinds (the tool schema's enum and the
client's `HIGHLIGHT_CLASSES` keys). -/
def allowedHighlightTypes : List String :=
  ["question", "suggestion", "edit", "voice", "weakness", "evidence",
   "wordiness", "factcheck"]

/-- Decimal digits of a natural number (reference rendering used to
reason about `Nat.repr`). -/
def decSpec (n : Nat) : List Char :=
  if _h : n < 10 then [Nat.digitChar n]
  else decSpec (n / 10) ++ [Nat.digitChar (n % 10)]
  termination_by n
  decreasing_by exact Nat.div_lt_self (by omega) (by omega)

/-- Test environment with the well-formed input and clock 5. -/
def envSample5 : ChatEnv := mkTestEnv sampleInput 5

/-- Test environment with the out-of-enum input and clock 0. -/
def envBogus0 : ChatEnv := mkTestEnv bogusInput 0

/-- A one-round one-highlight request. -/
def inpOneHl : HandlerInput := ⟨"hi", [], [], true, [.stream oneHighlightRound]⟩

/-- A request whose model requests a tool on every round (12 scripted
rounds, more than the cap). -/
def inpCap : HandlerInput :=
  ⟨"hi", [], [], true, List.replicate 12 (.stream toolUseRound)⟩

/-- A one-highlight request against a project storing 200 highlights. -/
def inpStored200 : HandlerInput :=
  ⟨"hi", [], List.replicate 200 storedHl, true, [.stream oneHighlightRound]⟩

/-- A request whose first round contains an empty-input tool block and a
valid `cite_source` block, then a second round stopping naturally. -/
def inpEmptyInput : HandlerInput :=
  ⟨"hi", [], [], true,
   [.stream emptyInputRound, .stream [.messageDelta (some "end_turn")]]⟩

/-- A request whose model call fails. -/
def inpFailTurn : HandlerInput := ⟨"hi", [], [], true, [.fail]⟩

/-- The conversation stored after the first one-highlight turn. -/
def convAfterTurn1 : List ChatMsg :=
  (lastConvUpsert (chatHandler envSample5 inpOneHl).trace).getD []

/-- A second one-highlight turn on the same conversation. -/
def inpTurn2 : HandlerInput :=
  ⟨"again", convAfterTurn1, [], true, [.stream oneHighlightRound]⟩

/-! # Theorems -/

/-- C1: the dual-implementation invariant "`stripMarkdown` of the
markdown source is character-identical to `getDocFlatText` of the
rendered document" fails already on the two-paragraph document rendered
from `"A\n\nB"`: the normalizer keeps the blank-line separator
(`"A\n\nB"`), while the client flat text uses a single newline per block
boundary (`"A\nB"`) — although the `stripMarkdown` doc comment itself
asserts the two must match.  Any matchText spanning a paragraph break
can therefore never anchor. -/
theorem hermes_C1_bug :
    docMarkdown twoParaDoc = "A\n\nB".data ∧
    stripMarkdownL (docMarkdown twoParaDoc) = "A\n\nB".data ∧
    getDocFlatTextL twoParaDoc = "A\nB".data ∧
    stripMarkdownL (docMarkdown twoParaDoc) ≠ getDocFlatTextL twoParaDoc := by
  decide

/-- C2 counterexample: in `doc(paragraph("A"), paragraph())` the
nonempty text `"A\n"` occurs verbatim in the flat text (`indexOf` finds
it at 0), yet the locate pipeline reports not-found (the end offset
falls beyond the last text run) and the plugin drops the highlight, so
"found=true with to > from exactly when matchText occurs verbatim" is
false at this input. -/
theorem hermes_C2_counterexample :
    firstIdx (getDocFlatTextL trailingEmptyParaDoc) "A\n".data = some 0 ∧
    "A\n".data ≠ [] ∧
    locateMatch trailingEmptyParaDoc "A\n".data = none ∧
    applyHighlights trailingEmptyParaDoc [⟨"hX", "question", "A\n", false⟩] = [] := by
  decide

theorem resolveAux_found_ge :
    ∀ (V : List Visit) (c off q : Nat),
      resolveAux V c off = ⟨true, q⟩ → c ≤ off
  | [], c, off, q => by
    intro h
    exact absurd (congrArg OffsetResult.found h) (by simp [resolveAux])
  | .vtext s p :: r, c, off, q => by
    simp only [resolveAux]
    split
    · rename_i h
      intro _
      exact h.1
    · intro hq
      have := resolveAux_found_ge r (c + s.length) off q hq
      omega
  | .vblock p :: r, c, off, q => by
    simp only [resolveAux]
    intro hq
    have h2 := resolveAux_found_ge r (if 0 < p then c + 1 else c) off q hq
    split at h2 <;> omega

theorem resolveAux_lb :
    ∀ (V : List Visit) (c d off q : Nat), WFVisits V c d →
      resolveAux V c off = ⟨true, q⟩ → off + d ≤ q
  | [], c, d, off, q => by
    intro _ h
    exact absurd (congrArg OffsetResult.found h) (by simp [resolveAux])
  | .vtext s p :: r, c, d, off, q => by
    intro hw hq
    simp only [WFVisits] at hw
    simp only [resolveAux] at hq
    split at hq
    · rename_i h
      have hq2 : p + (off - c) = q := congrArg OffsetResult.pos hq
      omega
    · have := resolveAux_lb r (c + s.length) (p - c) off q hw.2 hq
      omega
  | .vblock p :: r, c, d, off, q => by
    intro hw hq
    simp only [WFVisits] at hw
    simp only [resolveAux] at hq
    exact resolveAux_lb r (if 0 < p then c + 1 else c) d off q hw.2 hq

theorem resolveAux_mono :
    ∀ (V : List Visit) (c d off1 off2 q1 q2 : Nat), WFVisits V c d →
      off1 < off2 →
      resolveAux V c off1 = ⟨true, q1⟩ →
      resolveAux V c off2 = ⟨true, q2⟩ → q1 < q2
  | [], c, d, off1, off2, q1, q2 => by
    intro _ _ h1 _
    exact absurd (congrArg OffsetResult.found h1) (by simp [resolveAux])
  | .vtext s p :: r, c, d, off1, off2, q1, q2 => by
    intro hw hlt h1 h2
    simp only [WFVisits] at hw
    simp only [resolveAux] at h1 h2
    by_cases hc1 : c ≤ off1 ∧ off1 ≤ c + s.length
    · rw [if_pos hc1] at h1
      have hq1 : p + (off1 - c) = q1 := congrArg OffsetResult.pos h1
      by_cases hc2 : c ≤ off2 ∧ off2 ≤ c + s.length
      · rw [if_pos hc2] at h2
        have hq2 : p + (off2 - c) = q2 := congrArg OffsetResult.pos h2
        omega
      · rw [if_neg hc2] at h2
        have hlb := resolveAux_lb r (c + s.length) (p - c) off2 q2 hw.2 h2
        have hcle : c ≤ off2 := by omega
        have hgt : c + s.length < off2 := by
          rcases Nat.lt_or_ge (c + s.length) off2 with h | h
          · exact h
          · exact absurd ⟨hcle, h⟩ hc2
        omega
    · rw [if_neg hc1] at h1
      have hge := resolveAux_found_ge r (c + s.length) off1 q1 h1
      have hc2 : ¬(c ≤ off2 ∧ off2 ≤ c + s.length) := by omega
      rw [if_neg hc2] at h2
      exact resolveAux_mono r (c + s.length) (p - c) off1 off2 q1 q2 hw.2 hlt h1 h2
  | .vblock p :: r, c, d, off1, off2, q1, q2 => by
    intro hw hlt h1 h2
    simp only [WFVisits] at hw
    simp only [resolveAux] at h1 h2
    exact resolveAux_mono r (if 0 < p then c + 1 else c) d off1 off2 q1 q2 hw.2 hlt h1 h2

theorem curAfter_append : ∀ (V1 V2 : List Visit) (c : Nat),
    curAfter (V1 ++ V2) c = curAfter V2 (curAfter V1 c)
  | [], V2, c => rfl
  | .vtext s p :: r, V2, c => by
    simp only [List.cons_append, curAfter]
    exact curAfter_append r V2 (c + s.length)
  | .vblock p :: r, V2, c => by
    simp only [List.cons_append, curAfter]
    exact curAfter_append r V2 (if 0 < p then c + 1 else c)

theorem drAfter_append : ∀ (V1 V2 : List Visit) (c d : Nat),
    drAfter (V1 ++ V2) c d = drAfter V2 (curAfter V1 c) (drAfter V1 c d)
  | [], V2, c, d => rfl
  | .vtext s p :: r, V2, c, d => by
    simp only [List.cons_append, drAfter, curAfter]
    exact drAfter_append r V2 (c + s.length) (p - c)
  | .vblock p :: r, V2, c, d => by
    simp only [List.cons_append, drAfter, curAfter]
    exact drAfter_append r V2 (if 0 < p then c + 1 else c) d

theorem wfv_append : ∀ (V1 V2 : List Visit) (c d : Nat),
    WFVisits (V1 ++ V2) c d ↔
      WFVisits V1 c d ∧ WFVisits V2 (curAfter V1 c) (drAfter V1 c d)
  | [], V2, c, d => by simp [WFVisits, curAfter, drAfter]
  | .vtext s p :: r, V2, c, d => by
    simp only [List.cons_append, List.append_eq, WFVisits, curAfter, drAfter]
    rw [wfv_append r V2 (c + s.length) (p - c)]
    tauto
  | .vblock p :: r, V2, c, d => by
    simp only [List.cons_append, List.append_eq, WFVisits, curAfter, drAfter]
    rw [wfv_append r V2 (if 0 < p then c + 1 else c) d]
    tauto

mutual
theorem nodeWF : ∀ (n : PMNode) (p c d : Nat), c + d ≤ p →
    WFVisits (nodeVisits n p) c d ∧
      curAfter (nodeVisits n p) c + drAfter (nodeVisits n p) c d ≤ p + nodeSize n
  | .text s, p, c, d, h => by
    simp only [nodeVisits, nodeSize, WFVisits, curAfter, drAfter]
    exact ⟨⟨h, trivial⟩, by omega⟩
  | .block f, p, c, d, h => by
    simp only [nodeVisits, nodeSize, WFVisits, curAfter, drAfter]
    have hf := forestWF f (p + 1) (if 0 < p then c + 1 else c) d
      (by split <;> omega)
    refine ⟨⟨fun _ => h, hf.1⟩, ?_⟩
    have := hf.2
    omega

theorem forestWF : ∀ (f : PMForest) (p c d : Nat), c + d ≤ p →
    WFVisits (forestVisits f p) c d ∧
      curAfter (forestVisits f p) c + drAfter (forestVisits f p) c d ≤
        p + forestSize f
  | .nil, p, c, d, h => by
    simp only [forestVisits, forestSize, WFVisits, curAfter, drAfter]
    exact ⟨trivial, by omega⟩
  | .cons n f, p, c, d, h => by
    simp only [forestVisits, forestSize]
    have hn := nodeWF n p c d h
    have hf := forestWF f (p + nodeSize n) (curAfter (nodeVisits n p) c)
      (drAfter (nodeVisits n p) c d) hn.2
    rw [wfv_append, curAfter_append, drAfter_append]
    refine ⟨⟨hn.1, hf.1⟩, ?_⟩
    have := hf.2
    omega
end

theorem docVisits_wf (d : PMForest) : WFVisits (docVisits d) 0 0 :=
  (forestWF d 0 0 0 (Nat.le_refl 0)).1

/-- C2 (amended): dismissed highlights and absent matchText are skipped
silently; and whenever matchText occurs (first occurrence at `i`), is
nonempty, and both end offsets resolve inside text runs, the locate
pipeline returns that occurrence with a strictly increasing range.  (The
counterexample forces the added resolvability hypotheses: an occurrence
whose end offset falls beyond the last text run — e.g. into a trailing
block-separator newline — fails to resolve and is skipped like a miss.) -/
theorem hermes_C2_amended : ∀ (d : PMForest) (m : List Char),
    (firstIdx (getDocFlatTextL d) m = none → locateMatch d m = none) ∧
    (∀ h : ClientHighlight, h.dismissed = false →
        locateMatch d h.matchText.data = none → applyHighlights d [h] = []) ∧
    ∀ i, firstIdx (getDocFlatTextL d) m = some i → m ≠ [] →
      (flatOffsetToPos d i).found = true →
      (flatOffsetToPos d (i + m.length)).found = true →
      (flatOffsetToPos d i).pos < (flatOffsetToPos d (i + m.length)).pos ∧
      locateMatch d m =
        some ((flatOffsetToPos d i).pos, (flatOffsetToPos d (i + m.length)).pos) := by
  intro d m
  refine ⟨?_, ?_, ?_⟩
  · intro h
    simp [locateMatch, h]
  · intro h hd hl
    simp [applyHighlights, hd, hl]
  · intro i hi hm hf ht
    have e1 : resolveAux (docVisits d) 0 i = ⟨true, (flatOffsetToPos d i).pos⟩ := by
      rw [← hf]; rfl
    have e2 : resolveAux (docVisits d) 0 (i + m.length) =
        ⟨true, (flatOffsetToPos d (i + m.length)).pos⟩ := by
      rw [← ht]; rfl
    have hlen : 0 < m.length := List.length_pos.mpr hm
    have hmono := resolveAux_mono (docVisits d) 0 0 i (i + m.length) _ _
      (docVisits_wf d) (by omega) e1 e2
    refine ⟨hmono, ?_⟩
    simp only [locateMatch, hi]
    rw [if_neg (by simp [hf, ht]), if_neg (by omega)]

/-- C2 witness: the theorem applied to `doc(paragraph("A"))` and
matchText `"A"`. -/
theorem hermes_C2_witness :
    (flatOffsetToPos oneParaDoc 0).pos <
      (flatOffsetToPos oneParaDoc (0 + "A".data.length)).pos ∧
    locateMatch oneParaDoc "A".data =
      some ((flatOffsetToPos oneParaDoc 0).pos,
        (flatOffsetToPos oneParaDoc (0 + "A".data.length)).pos) :=
  (hermes_C2_amended oneParaDoc "A".data).2.2 0 (by decide) (by decide)
    (by decide) (by decide)

theorem foldl_feedChar_shift :
    ∀ (l : List Char) (ls0 ls : List (List Char)) (cur : List Char),
      l.foldl feedChar (ls0 ++ ls, cur) =
        (ls0 ++ (l.foldl feedChar (ls, cur)).1, (l.foldl feedChar (ls, cur)).2)
  | [], ls0, ls, cur => rfl
  | ch :: rest, ls0, ls, cur => by
    simp only [List.foldl_cons, feedChar]
    by_cases h : ch = '\n'
    · rw [if_pos h, if_pos h, List.append_assoc]
      exact foldl_feedChar_shift rest ls0 (ls ++ [cur]) []
    · rw [if_neg h, if_neg h]
      exact foldl_feedChar_shift rest ls0 ls (cur ++ [ch])

theorem foldl_feedChar_rem_no_nl :
    ∀ (l : List Char) (ls : List (List Char)) (cur : List Char),
      '\n' ∉ cur → '\n' ∉ (l.foldl feedChar (ls, cur)).2
  | [], ls, cur, h => h
  | ch :: rest, ls, cur, h => by
    simp only [List.foldl_cons, feedChar]
    by_cases hc : ch = '\n'
    · rw [if_pos hc]
      exact foldl_feedChar_rem_no_nl rest (ls ++ [cur]) [] (by simp)
    · rw [if_neg hc]
      refine foldl_feedChar_rem_no_nl rest ls (cur ++ [ch]) ?_
      simp only [List.mem_append, List.mem_singleton]
      rintro (hm | hm)
      · exact h hm
      · exact hc hm.symm

theorem foldl_feedChar_no_nl_id :
    ∀ (l : List Char) (cur : List Char), '\n' ∉ l →
      l.foldl feedChar ([], cur) = ([], cur ++ l)
  | [], cur, _ => by simp
  | ch :: rest, cur, h => by
    simp only [List.foldl_cons, feedChar]
    rw [if_neg (by simp at h; exact fun hc => h.1 hc.symm)]
    rw [foldl_feedChar_no_nl_id rest (cur ++ [ch]) (by simp at h; exact h.2)]
    simp

theorem processLine_buffer {P : Type} (parse : List Char → Option P)
    (s : DecState P) (b line : List Char) :
    processLine parse { s with buffer := b } line =
      { processLine parse s line with buffer := b } := by
  simp only [processLine]
  by_cases h1 : List.isPrefixOf "event: ".data line = true
  · simp [h1]
  · simp only [h1]
    by_cases h2 : List.isPrefixOf "data: ".data line = true
    · simp only [h2, if_true, if_false, Bool.false_eq_true]
      cases parse (line.drop 6) <;> simp
    · simp [h1, h2]

theorem foldl_processLine_buffer {P : Type} (parse : List Char → Option P) :
    ∀ (ls : List (List Char)) (s : DecState P) (b : List Char),
      ls.foldl (processLine parse) { s with buffer := b } =
        { ls.foldl (processLine parse) s with buffer := b }
  | [], s, b => rfl
  | line :: rest, s, b => by
    simp only [List.foldl_cons]
    rw [processLine_buffer]
    exact foldl_processLine_buffer parse rest (processLine parse s line) b

theorem foldl_feedChar_assemble (A c2 : List Char) :
    c2.foldl feedChar (A.foldl feedChar ([], [])) =
      ((A.foldl feedChar ([], [])).1 ++
         (c2.foldl feedChar ([], (A.foldl feedChar ([], [])).2)).1,
       (c2.foldl feedChar ([], (A.foldl feedChar ([], [])).2)).2) := by
  conv_lhs =>
    rw [show A.foldl feedChar ([], []) =
         ((A.foldl feedChar ([], [])).1 ++ [], (A.foldl feedChar ([], [])).2) by simp]
  rw [foldl_feedChar_shift]

theorem feedSse_append {P : Type} (parse : List Char → Option P)
    (st : DecState P) (c1 c2 : List Char) :
    feedSse parse (feedSse parse st c1) c2 = feedSse parse st (c1 ++ c2) := by
  have hr1 : '\n' ∉ (splitComplete st.buffer c1).2 :=
    foldl_feedChar_rem_no_nl (st.buffer ++ c1) [] [] (by simp)
  have e2 : splitComplete (splitComplete st.buffer c1).2 c2 =
      c2.foldl feedChar ([], (splitComplete st.buffer c1).2) := by
    show ((splitComplete st.buffer c1).2 ++ c2).foldl feedChar ([], []) = _
    rw [List.foldl_append, foldl_feedChar_no_nl_id _ [] hr1]
    simp
  have e1 : splitComplete st.buffer (c1 ++ c2) =
      ((splitComplete st.buffer c1).1 ++
         (c2.foldl feedChar ([], (splitComplete st.buffer c1).2)).1,
       (c2.foldl feedChar ([], (splitComplete st.buffer c1).2)).2) := by
    show (st.buffer ++ (c1 ++ c2)).foldl feedChar ([], []) = _
    rw [← List.append_assoc, List.foldl_append]
    exact foldl_feedChar_assemble (st.buffer ++ c1) c2
  simp only [feedSse]
  rw [e2, e1]
  simp only [List.foldl_append]
  rw [foldl_processLine_buffer]

theorem feedAll_flatten {P : Type} (parse : List Char → Option P) :
    ∀ (chunks : List (List Char)) (st : DecState P), '\n' ∉ st.buffer →
      chunks.foldl (feedSse parse) st = feedSse parse st chunks.flatten
  | [], st, h => by
    have e : splitComplete st.buffer [] = ([], st.buffer) := by
      show (st.buffer ++ []).foldl feedChar ([], []) = _
      rw [List.append_nil, foldl_feedChar_no_nl_id _ [] h]
      simp
    simp [feedSse, e]
  | c :: cs, st, h => by
    simp only [List.foldl_cons, List.flatten_cons]
    rw [feedAll_flatten parse cs (feedSse parse st c)
      (foldl_feedChar_rem_no_nl (st.buffer ++ c) [] [] (by simp)),
      feedSse_append]

/-- C9: the client SSE decoder processes only complete lines, retaining
the trailing partial line, and its decoded callback sequence (and final
state) is the same for every chunking of the same byte stream; a data
line whose payload does not parse as JSON is skipped without effect.
The current-event tracking and per-line processing are the definitions
`processLine`/`feedSse` themselves. -/
theorem hermes_C9 :
    (∀ (P : Type) (parse : List Char → Option P) (chunks : List (List Char)),
        readAssistantStream parse chunks =
          readAssistantStream parse [chunks.flatten]) ∧
    ∀ (P : Type) (parse : List Char → Option P) (st : DecState P)
      (dat : List Char), parse dat = none →
      processLine parse st ("data: ".data ++ dat) = st := by
  constructor
  · intro P parse chunks
    show chunks.foldl (feedSse parse) (initDecState P) = _
    rw [feedAll_flatten parse chunks (initDecState P) (by simp [initDecState])]
    rfl
  · intro P parse st dat hp
    have hne : List.isPrefixOf "event: ".data ("data: ".data ++ dat) = false := rfl
    have hpe : List.isPrefixOf "data: ".data ("data: ".data ++ dat) = true := by
      show List.isPrefixOf (['d', 'a', 't', 'a', ':', ' '] : List Char)
        ((['d', 'a', 't', 'a', ':', ' '] : List Char) ++ dat) = true
      simp [List.isPrefixOf_cons₂]
    have hdr : ("data: ".data ++ dat).drop 6 = dat := by
      show ((['d', 'a', 't', 'a', ':', ' '] : List Char) ++ dat).drop 6 = dat
      simp
    simp only [processLine, hne, hpe, hdr, hp]
    simp

/-- C9 witness: the theorem at a concrete parser, chunk list and
unparseable data line. -/
theorem hermes_C9_witness :
    (readAssistantStream (P := Unit) (fun _ => none)
        ["even".data, "t: done\ndata: x\n".data] =
      readAssistantStream (fun _ => none)
        [(["even".data, "t: done\ndata: x\n".data] : List (List Char)).flatten]) ∧
    processLine (P := Unit) (fun _ => none) (initDecState Unit)
      ("data: ".data ++ "x".data) = initDecState Unit :=
  ⟨hermes_C9.1 Unit (fun _ => none) ["even".data, "t: done\ndata: x\n".data],
   hermes_C9.2 Unit (fun _ => none) (initDecState Unit) "x".data rfl⟩

/-- C4: whenever the caller's tier shows `used ≥ limit`, the gate
rejects the request with HTTP 429 and the structured body (error, code,
message, plan, used, limit, isTrial, trialExpiresAt), the code is
`DAILY_LIMIT_EXCEEDED` for the free tier, and the handler never runs:
no model call and no conversation-state write occurs. -/
theorem hermes_C4 (profile : Option UserProfile) (now : Int)
    (counts : UsageCounts) (env : ChatEnv) (inp : HandlerInput)
    (hlim : gateLimit (profile.getD defaultProfile) now ≤
      gateUsed (profile.getD defaultProfile) now counts) :
    chatEndpoint profile now counts env inp =
      .rejected 429
        ⟨"Message limit reached", gateCode (profile.getD defaultProfile) now,
         gateMessage (profile.getD defaultProfile) now,
         (profile.getD defaultProfile).plan,
         gateUsed (profile.getD defaultProfile) now counts,
         gateLimit (profile.getD defaultProfile) now,
         gateIsActiveTrial (profile.getD defaultProfile) now,
         (profile.getD defaultProfile).trial_expires_at⟩ ∧
    endpointTrace (chatEndpoint profile now counts env inp) = [] ∧
    countModelCalls (endpointTrace (chatEndpoint profile now counts env inp)) = 0 ∧
    (gateIsPro (profile.getD defaultProfile) = false →
      gateIsActiveTrial (profile.getD defaultProfile) now = false →
      gateCode (profile.getD defaultProfile) now = "DAILY_LIMIT_EXCEEDED") := by
  have e : checkMessageLimit profile now counts =
      .reject 429
        ⟨"Message limit reached", gateCode (profile.getD defaultProfile) now,
         gateMessage (profile.getD defaultProfile) now,
         (profile.getD defaultProfile).plan,
         gateUsed (profile.getD defaultProfile) now counts,
         gateLimit (profile.getD defaultProfile) now,
         gateIsActiveTrial (profile.getD defaultProfile) now,
         (profile.getD defaultProfile).trial_expires_at⟩ := by
    simp only [checkMessageLimit]
    rw [if_pos hlim]
  refine ⟨?_, ?_, ?_, ?_⟩
  · simp only [chatEndpoint, e]
  · simp only [chatEndpoint, e, endpointTrace]
  · simp only [chatEndpoint, e, endpointTrace, countModelCalls, List.countP_nil]
  · intro h1 h2
    simp [gateCode, h1, h2]

/-- C4 witness: a free user at the daily limit (used = limit = 5) is
rejected with `DAILY_LIMIT_EXCEEDED` and an action-free trace. -/
theorem hermes_C4_witness :
    chatEndpoint none 0 ⟨none, none, some 5⟩ envSample5 inpOneHl =
      .rejected 429
        ⟨"Message limit reached", gateCode ((none : Option UserProfile).getD defaultProfile) 0,
         gateMessage ((none : Option UserProfile).getD defaultProfile) 0,
         ((none : Option UserProfile).getD defaultProfile).plan,
         gateUsed ((none : Option UserProfile).getD defaultProfile) 0 ⟨none, none, some 5⟩,
         gateLimit ((none : Option UserProfile).getD defaultProfile) 0,
         gateIsActiveTrial ((none : Option UserProfile).getD defaultProfile) 0,
         ((none : Option UserProfile).getD defaultProfile).trial_expires_at⟩ ∧
    endpointTrace (chatEndpoint none 0 ⟨none, none, some 5⟩ envSample5 inpOneHl) = [] ∧
    countModelCalls
      (endpointTrace (chatEndpoint none 0 ⟨none, none, some 5⟩ envSample5 inpOneHl)) = 0 ∧
    (gateIsPro ((none : Option UserProfile).getD defaultProfile) = false →
      gateIsActiveTrial ((none : Option UserProfile).getD defaultProfile) 0 = false →
      gateCode ((none : Option UserProfile).getD defaultProfile) 0 = "DAILY_LIMIT_EXCEEDED") :=
  hermes_C4 none 0 ⟨none, none, some 5⟩ envSample5 inpOneHl (by decide)

set_option maxRecDepth 10000 in
/-- C3 (code bug): the chat route merges a turn's new highlights by a
read-modify-write (`existing ++ new`, written back uncapped) and never
calls the `append_highlights` RPC, so a project already holding 200
highlights ends up with 201 stored entries — while the RPC the
repository's own audit-remediation migration introduced for this merge
caps the result at 200. -/
theorem hermes_C3_bug :
    (routeMergeHighlights (List.replicate 200 storedHl) [storedHl]).length = 201 ∧
    (append_highlights (List.replicate 200 storedHl) [storedHl]).length = 200 ∧
    (firstProjUpdate (chatHandler envSample5 inpStored200).trace).map
        List.length = some 201 := by
  have hm : (List.replicate 200 storedHl ++ [storedHl]).length = 201 := by
    rw [List.length_append, List.length_replicate]
    rfl
  refine ⟨?_, ?_, by decide⟩
  · simp only [routeMergeHighlights]
    exact hm
  · simp [append_highlights, hm]

theorem processEv_streamActs (env : ChatEnv) (t : TurnSt) (r : RoundSt)
    (e : StreamEv) : ∀ a ∈ stepActs (processEv env t r e), streamAct a = true := by
  cases e with
  | blockStartText => simp [processEv, stepActs]
  | blockStartTool name id => simp [processEv, stepActs]
  | textDelta s => simp [processEv, stepActs, streamAct]
  | inputJsonDelta s => simp [processEv, stepActs]
  | messageDelta sr => simp [processEv, stepActs]
  | blockStop =>
    simp only [processEv]
    by_cases hg : r.curName ≠ "" ∧ r.curInput ≠ ""
    · rw [if_pos hg]
      cases hp : env.parse r.curInput with
      | none =>
        by_cases h1 : r.curName = "add_highlight"
        · simp [h1, stepActs, streamAct]
        · by_cases h2 : r.curName = "cite_source"
          · simp [h1, h2, stepActs, streamAct]
          · by_cases h3 : env.isMcpTool r.curName
            · simp [h1, h2, h3, stepActs, streamAct]
            · simp [h1, h2, h3, stepActs, streamAct]
      | some inp =>
        by_cases h1 : r.curName = "add_highlight"
        · simp [h1, stepActs, streamAct]
        · by_cases h2 : r.curName = "cite_source"
          · simp [h1, h2, stepActs, streamAct]
          · by_cases h3 : env.isMcpTool r.curName
            · simp [h1, h2, h3, stepActs, streamAct]
            · simp [h1, h2, h3, stepActs, streamAct]
    · rw [if_neg hg]
      simp [stepActs]

theorem processRound_streamActs (env : ChatEnv) :
    ∀ (evs : List StreamEv) (t : TurnSt) (r : RoundSt),
      ∀ a ∈ stepActs (processRound env t r evs), streamAct a = true
  | [], t, r => by simp [processRound, stepActs]
  | e :: es, t, r => by
    have hev := processEv_streamActs env t r e
    cases hpe : processEv env t r e with
    | failed acts =>
      rw [hpe] at hev
      simp only [stepActs] at hev
      simp only [processRound, hpe, stepActs]
      exact hev
    | ok s acts =>
      rw [hpe] at hev
      simp only [stepActs] at hev
      obtain ⟨t2, r2⟩ := s
      have hrec := processRound_streamActs env es t2 r2
      cases hpr : processRound env t2 r2 es with
      | failed acts2 =>
        rw [hpr] at hrec
        simp only [stepActs] at hrec
        simp only [processRound, hpe, hpr, stepActs]
        intro a ha
        rcases List.mem_append.mp ha with h | h
        · exact hev a h
        · exact hrec a h
      | ok s2 acts2 =>
        rw [hpr] at hrec
        simp only [stepActs] at hrec
        simp only [processRound, hpe, hpr, stepActs]
        intro a ha
        rcases List.mem_append.mp ha with h | h
        · exact hev a h
        · exact hrec a h

theorem buildToolResults_streamActs (env : ChatEnv) :
    ∀ (bs : List CBlock), ∀ a ∈ (buildToolResults env bs).2, streamAct a = true
  | [] => by simp [buildToolResults]
  | b :: bs => by
    have hrec := buildToolResults_streamActs env bs
    by_cases h1 : b.name = "add_highlight"
    · simp only [buildToolResults, if_pos h1]
      exact hrec
    · by_cases h2 : b.name = "cite_source"
      · simp only [buildToolResults, if_neg h1, if_pos h2]
        exact hrec
      · simp only [buildToolResults, if_neg h1, if_neg h2]
        intro a ha
        simp only [List.mem_cons] at ha
        rcases ha with ha | ha | ha
        · simp [ha, streamAct]
        · simp [ha, streamAct]
        · exact hrec a ha

theorem streamAct_loopAct : ∀ a : Action, streamAct a = true → loopAct a = true := by
  intro a ha
  cases a <;> simp_all [streamAct, loopAct]

theorem runLoop_loopActs (env : ChatEnv) :
    ∀ (b : List RoundOutcome) (t : TurnSt) (tr : Nat),
      ∀ a ∈ (runLoop env t tr b).1, loopAct a = true
  | [], t, tr => by simp [runLoop, loopAct]
  | ro :: rest, t, tr => by
    cases ro with
    | fail => simp [runLoop, loopAct]
    | stream evs =>
      have hpr := processRound_streamActs env evs t initRoundSt
      cases hp : processRound env t initRoundSt evs with
      | failed acts =>
        rw [hp] at hpr
        simp only [stepActs] at hpr
        simp only [runLoop, hp]
        intro a ha
        simp only [List.mem_cons] at ha
        rcases ha with ha | ha
        · simp [ha, loopAct]
        · exact streamAct_loopAct a (hpr a ha)
      | ok s acts =>
        rw [hp] at hpr
        simp only [stepActs] at hpr
        obtain ⟨t2, r2⟩ := s
        simp only [runLoop, hp]
        by_cases hstop : r2.stopReason = some "tool_use"
        · rw [if_pos hstop]
          by_cases hcap : tr + 1 ≥ MAX_TOOL_ROUNDS
          · rw [if_pos hcap]
            intro a ha
            rcases List.mem_cons.mp ha with ha | ha
            · simp [ha, loopAct]
            rcases List.mem_append.mp ha with ha | ha
            · exact streamAct_loopAct a (hpr a ha)
            · have he : a = Action.logWarn "Max tool rounds reached - stopping loop" := by
                simpa using ha
              simp [he, loopAct, streamAct]
          · rw [if_neg hcap]
            intro a ha
            rcases List.mem_cons.mp ha with ha | ha
            · simp [ha, loopAct]
            rcases List.mem_append.mp ha with ha | ha
            · rcases List.mem_append.mp ha with ha | ha
              · exact streamAct_loopAct a (hpr a ha)
              · exact streamAct_loopAct a (buildToolResults_streamActs env r2.blocks a ha)
            · rcases List.mem_cons.mp ha with ha | ha
              · simp [ha, loopAct]
              · exact runLoop_loopActs env rest t2 (tr + 1) a ha
        · rw [if_neg hstop]
          intro a ha
          simp only [List.mem_cons] at ha
          rcases ha with ha | ha
          · simp [ha, loopAct]
          · exact streamAct_loopAct a (hpr a ha)

theorem countP_zero_of_class (pr cls : Action → Bool)
    (h : ∀ a, cls a = true → pr a = false) :
    ∀ acts : List Action, (∀ a ∈ acts, cls a = true) → acts.countP pr = 0 := by
  intro acts hall
  rw [List.countP_eq_zero]
  intro a ha
  have he := h a (hall a ha)
  simp [he]

theorem streamAct_not_modelCall :
    ∀ a : Action, streamAct a = true →
      (fun a => decide (a = Action.modelCall)) a = false := by
  intro a ha
  cases a <;> simp_all [streamAct]

theorem streamAct_not_nextRound :
    ∀ a : Action, streamAct a = true →
      (fun a =>
        match a with
        | Action.nextRound _ _ => true
        | _ => false) a = false := by
  intro a ha
  cases a <;> simp_all [streamAct]

theorem runLoop_modelCalls (env : ChatEnv) :
    ∀ (b : List RoundOutcome) (t : TurnSt) (tr : Nat), tr < MAX_TOOL_ROUNDS →
      countModelCalls (runLoop env t tr b).1 + tr ≤ MAX_TOOL_ROUNDS
  | [], t, tr => by
    intro htr
    simp only [runLoop, countModelCalls, List.countP_cons, List.countP_nil]
    simp only [MAX_TOOL_ROUNDS] at htr ⊢
    simp
    omega
  | ro :: rest, t, tr => by
    intro htr
    cases ro with
    | fail =>
      simp only [runLoop, countModelCalls, List.countP_cons, List.countP_nil]
      simp only [MAX_TOOL_ROUNDS] at htr ⊢
      simp
      omega
    | stream evs =>
      have hpr := processRound_streamActs env evs t initRoundSt
      cases hp : processRound env t initRoundSt evs with
      | failed acts =>
        rw [hp] at hpr
        simp only [stepActs] at hpr
        have hz := countP_zero_of_class _ streamAct streamAct_not_modelCall acts hpr
        simp only [runLoop, hp, countModelCalls, List.countP_cons]
        rw [hz]
        simp only [MAX_TOOL_ROUNDS] at htr ⊢
        simp
        omega
      | ok s acts =>
        rw [hp] at hpr
        simp only [stepActs] at hpr
        obtain ⟨t2, r2⟩ := s
        have hz := countP_zero_of_class _ streamAct streamAct_not_modelCall acts hpr
        simp only [runLoop, hp]
        by_cases hstop : r2.stopReason = some "tool_use"
        · rw [if_pos hstop]
          by_cases hcap : tr + 1 ≥ MAX_TOOL_ROUNDS
          · rw [if_pos hcap]
            simp only [countModelCalls, List.countP_cons, List.countP_append,
              List.countP_nil]
            rw [hz]
            simp only [MAX_TOOL_ROUNDS] at htr ⊢
            simp
            omega
          · rw [if_neg hcap]
            have hz2 := countP_zero_of_class _ streamAct streamAct_not_modelCall
              (buildToolResults env r2.blocks).2
              (buildToolResults_streamActs env r2.blocks)
            have hrec := runLoop_modelCalls env rest t2 (tr + 1) (by omega)
            simp only [countModelCalls, List.countP_cons, List.countP_append] at hrec ⊢
            rw [hz, hz2]
            simp only [MAX_TOOL_ROUNDS] at htr hrec ⊢
            simp
            omega
        · rw [if_neg hstop]
          simp only [countModelCalls, List.countP_cons]
          rw [hz]
          simp only [MAX_TOOL_ROUNDS] at htr ⊢
          simp
          omega

theorem runLoop_resultRounds (env : ChatEnv) :
    ∀ (b : List RoundOutcome) (t : TurnSt) (tr : Nat), tr < MAX_TOOL_ROUNDS →
      countResultRounds (runLoop env t tr b).1 + tr + 1 ≤ MAX_TOOL_ROUNDS
  | [], t, tr => by
    intro htr
    simp only [runLoop, countResultRounds, List.countP_cons, List.countP_nil]
    simp only [MAX_TOOL_ROUNDS] at htr ⊢
    simp
    omega
  | ro :: rest, t, tr => by
    intro htr
    cases ro with
    | fail =>
      simp only [runLoop, countResultRounds, List.countP_cons, List.countP_nil]
      simp only [MAX_TOOL_ROUNDS] at htr ⊢
      simp
      omega
    | stream evs =>
      have hpr := processRound_streamActs env evs t initRoundSt
      cases hp : processRound env t initRoundSt evs with
      | failed acts =>
        rw [hp] at hpr
        simp only [stepActs] at hpr
        have hz := countP_zero_of_class _ streamAct streamAct_not_nextRound acts hpr
        simp only [runLoop, hp, countResultRounds, List.countP_cons]
        rw [hz]
        simp only [MAX_TOOL_ROUNDS] at htr ⊢
        simp
        omega
      | ok s acts =>
        rw [hp] at hpr
        simp only [stepActs] at hpr
        obtain ⟨t2, r2⟩ := s
        have hz := countP_zero_of_class _ streamAct streamAct_not_nextRound acts hpr
        simp only [runLoop, hp]
        by_cases hstop : r2.stopReason = some "tool_use"
        · rw [if_pos hstop]
          by_cases hcap : tr + 1 ≥ MAX_TOOL_ROUNDS
          · rw [if_pos hcap]
            simp only [countResultRounds, List.countP_cons, List.countP_append,
              List.countP_nil]
            rw [hz]
            simp only [MAX_TOOL_ROUNDS] at htr ⊢
            simp
            omega
          · rw [if_neg hcap]
            have hz2 := countP_zero_of_class _ streamAct streamAct_not_nextRound
              (buildToolResults env r2.blocks).2
              (buildToolResults_streamActs env r2.blocks)
            have hrec := runLoop_resultRounds env rest t2 (tr + 1) (by omega)
            simp only [countResultRounds, List.countP_cons, List.countP_append] at hrec ⊢
            rw [hz, hz2]
            simp only [MAX_TOOL_ROUNDS] at htr hrec ⊢
            simp
            omega
        · rw [if_neg hstop]
          simp only [countResultRounds, List.countP_cons]
          rw [hz]
          simp only [MAX_TOOL_ROUNDS] at htr ⊢
          simp
          omega

theorem chatSuccessTail_modelCalls (env : ChatEnv) (inp : HandlerInput)
    (t : TurnSt) : countModelCalls (chatSuccessTail env inp t) = 0 := by
  simp only [chatSuccessTail, countModelCalls]
  by_cases h : t.highlights.length > 0 <;>
    simp [h, List.countP_cons, List.countP_append]

theorem chatSuccessTail_resultRounds (env : ChatEnv) (inp : HandlerInput)
    (t : TurnSt) : countResultRounds (chatSuccessTail env inp t) = 0 := by
  simp only [chatSuccessTail, countResultRounds]
  by_cases h : t.highlights.length > 0 <;>
    simp [h, List.countP_cons, List.countP_append]

set_option maxRecDepth 10000 in
/-- C6: the tool-use loop is bounded by the configured cap of 10: in
every request the number of model calls and of tool-result rounds sent
back stays within `MAX_TOOL_ROUNDS`; and a scripted model that stops
with `tool_use` on every round (12 rounds offered) makes exactly 10
model calls, logs the truncation instead of erroring, completes the
turn successfully and still emits the `done` frame. -/
theorem hermes_C6 :
    (∀ (env : ChatEnv) (inp : HandlerInput),
       countModelCalls (chatHandler env inp).trace ≤ MAX_TOOL_ROUNDS ∧
       countResultRounds (chatHandler env inp).trace ≤ MAX_TOOL_ROUNDS) ∧
    countModelCalls (chatHandler envSample5 inpCap).trace = 10 ∧
    Action.logWarn "Max tool rounds reached - stopping loop" ∈
      (chatHandler envSample5 inpCap).trace ∧
    Action.emit .done ∈ (chatHandler envSample5 inpCap).trace ∧
    Action.emit .error ∉ (chatHandler envSample5 inpCap).trace ∧
    (chatHandler envSample5 inpCap).success = true := by
  refine ⟨?_, by decide, by decide, by decide, by decide, by decide⟩
  intro env inp
  by_cases ho : inp.ownedProject = false
  · simp [chatHandler, ho, countModelCalls, countResultRounds]
  · have hmc := runLoop_modelCalls env inp.behavior initTurnSt 0 (by simp [MAX_TOOL_ROUNDS])
    have hrr := runLoop_resultRounds env inp.behavior initTurnSt 0 (by simp [MAX_TOOL_ROUNDS])
    cases hres : (runLoop env initTurnSt 0 inp.behavior).2 with
    | none =>
      simp only [chatHandler, if_neg ho, hres]
      constructor
      · simp only [countModelCalls, List.countP_cons, List.countP_append,
          List.countP_nil] at hmc ⊢
        simp only [MAX_TOOL_ROUNDS] at hmc ⊢
        simp at hmc ⊢
        omega
      · simp only [countResultRounds, List.countP_cons, List.countP_append,
          List.countP_nil] at hrr ⊢
        simp only [MAX_TOOL_ROUNDS] at hrr ⊢
        simp at hrr ⊢
        omega
    | some t =>
      have htm := chatSuccessTail_modelCalls env inp t
      have htr := chatSuccessTail_resultRounds env inp t
      simp only [chatHandler, if_neg ho, hres]
      constructor
      · simp only [countModelCalls, List.countP_cons, List.countP_append,
          List.countP_nil] at hmc htm ⊢
        simp only [MAX_TOOL_ROUNDS] at hmc ⊢
        simp at hmc ⊢
        omega
      · simp only [countResultRounds, List.countP_cons, List.countP_append,
          List.countP_nil] at hrr htr ⊢
        simp only [MAX_TOOL_ROUNDS] at hrr ⊢
        simp at hrr ⊢
        omega

theorem loopAct_classes :
    ∀ a : Action, loopAct a = true →
      isUsageInsert a = false ∧ isConvUpsert a = false ∧
        isErrorEmit a = false := by
  intro a ha
  cases a with
  | emit e =>
    cases e <;>
      simp_all [loopAct, streamAct, isUsageInsert, isConvUpsert, isErrorEmit]
  | dbWrite w =>
    cases w <;> simp_all [loopAct, streamAct]
  | modelCall => simp [isUsageInsert, isConvUpsert, isErrorEmit]
  | mcpCall n => simp [isUsageInsert, isConvUpsert, isErrorEmit]
  | logWarn m => simp [isUsageInsert, isConvUpsert, isErrorEmit]
  | nextRound bl rl => simp [isUsageInsert, isConvUpsert, isErrorEmit]
  | streamEnd => simp_all [loopAct, streamAct]

theorem chatSuccessTail_counts (env : ChatEnv) (inp : HandlerInput)
    (t : TurnSt) :
    (chatSuccessTail env inp t).countP isUsageInsert = 1 ∧
    (chatSuccessTail env inp t).countP isConvUpsert = 1 ∧
    (chatSuccessTail env inp t).countP isErrorEmit = 0 := by
  simp only [chatSuccessTail]
  by_cases h : t.highlights.length > 0 <;>
    simp [h, List.countP_cons, List.countP_append, isUsageInsert, isConvUpsert,
      isErrorEmit]

/-- C5: on every owned-project chat request the user message is
appended to the loaded history and persisted as the very first action —
before any model call; exactly one usage-ledger row is inserted when the
turn succeeds and none when it fails; a failed turn emits the error
frame, ends the stream, and persists no assistant message (the single
conversation upsert remains the one carrying the user's message). -/
theorem hermes_C5 (env : ChatEnv) (inp : HandlerInput)
    (ho : inp.ownedProject = true) :
    (∃ rest, (chatHandler env inp).trace =
        Action.dbWrite (.convUpsert (chatAllMessages env inp)) :: rest) ∧
    (chatAllMessages env inp).getLast? = some (chatUserMsg env inp) ∧
    ((chatHandler env inp).success = true →
       (chatHandler env inp).trace.countP isUsageInsert = 1 ∧
       (chatHandler env inp).trace.countP isConvUpsert = 2 ∧
       (chatHandler env inp).trace.countP isErrorEmit = 0) ∧
    ((chatHandler env inp).success = false →
       (chatHandler env inp).trace.countP isUsageInsert = 0 ∧
       (chatHandler env inp).trace.countP isConvUpsert = 1 ∧
       (chatHandler env inp).trace.countP isErrorEmit = 1 ∧
       (chatHandler env inp).trace.getLast? = some Action.streamEnd ∧
       (chatHandler env inp).finalTurn = none) := by
  have hno : ¬ inp.ownedProject = false := by simp [ho]
  have hloop := runLoop_loopActs env inp.behavior initTurnSt 0
  have hzu := countP_zero_of_class isUsageInsert loopAct
    (fun a h => (loopAct_classes a h).1) _ hloop
  have hzc := countP_zero_of_class isConvUpsert loopAct
    (fun a h => (loopAct_classes a h).2.1) _ hloop
  have hze := countP_zero_of_class isErrorEmit loopAct
    (fun a h => (loopAct_classes a h).2.2) _ hloop
  have hlast : (chatAllMessages env inp).getLast? = some (chatUserMsg env inp) := by
    simp [chatAllMessages]
  cases hres : (runLoop env initTurnSt 0 inp.behavior).2 with
  | none =>
    simp only [chatHandler, if_neg hno, hres]
    refine ⟨by simp, hlast, ?_, ?_⟩
    · intro hsucc
      simp at hsucc
    · intro _
      refine ⟨?_, ?_, ?_, ?_, by trivial⟩
      · simp only [List.countP_cons, List.countP_append, List.countP_nil, hzu]
        simp [isUsageInsert]
      · simp only [List.countP_cons, List.countP_append, List.countP_nil, hzc]
        simp [isConvUpsert]
      · simp only [List.countP_cons, List.countP_append, List.countP_nil, hze]
        simp [isErrorEmit]
      · have hsh : Action.dbWrite (.convUpsert (chatAllMessages env inp)) ::
            (runLoop env initTurnSt 0 inp.behavior).1 ++
              [Action.emit .error, Action.streamEnd] =
            (Action.dbWrite (.convUpsert (chatAllMessages env inp)) ::
              ((runLoop env initTurnSt 0 inp.behavior).1 ++ [Action.emit .error])) ++
              [Action.streamEnd] := by
          simp
        rw [hsh, List.getLast?_concat]
  | some t =>
    have htc := chatSuccessTail_counts env inp t
    simp only [chatHandler, if_neg hno, hres]
    refine ⟨by simp, hlast, ?_, ?_⟩
    · intro _
      refine ⟨?_, ?_, ?_⟩
      · simp only [List.countP_cons, List.countP_append, hzu, htc.1]
        simp [isUsageInsert]
      · simp only [List.countP_cons, List.countP_append, hzc, htc.2.1]
        simp [isConvUpsert, chatSuccessTail]
      · simp only [List.countP_cons, List.countP_append, hze, htc.2.2]
        simp [isErrorEmit]
    · intro hfail
      simp at hfail

/-- C5 witness: the theorem at the one-highlight request (which
succeeds) and at a failing-model request. -/
theorem hermes_C5_witness :
    (∃ rest, (chatHandler envSample5 inpOneHl).trace =
        Action.dbWrite (.convUpsert (chatAllMessages envSample5 inpOneHl)) :: rest) ∧
    ((chatHandler envSample5 inpOneHl).trace.countP isUsageInsert = 1 ∧
     (chatHandler envSample5 inpOneHl).trace.countP isConvUpsert = 2 ∧
     (chatHandler envSample5 inpOneHl).trace.countP isErrorEmit = 0) ∧
    ((chatHandler envSample5 inpFailTurn).trace.countP isUsageInsert = 0 ∧
     (chatHandler envSample5 inpFailTurn).trace.countP isConvUpsert = 1 ∧
     (chatHandler envSample5 inpFailTurn).trace.countP isErrorEmit = 1 ∧
     (chatHandler envSample5 inpFailTurn).trace.getLast? = some Action.streamEnd ∧
     (chatHandler envSample5 inpFailTurn).finalTurn = none) :=
  ⟨(hermes_C5 envSample5 inpOneHl rfl).1,
   (hermes_C5 envSample5 inpOneHl rfl).2.2.1 (by decide),
   (hermes_C5 envSample5 inpFailTurn rfl).2.2.2 (by decide)⟩

/-- C7 counterexample: the orchestrator performs no runtime validation
of the highlight type: a parsed `add_highlight` input with type
`"bogus"` — outside the 8 allowed kinds — is synthesized and emitted
verbatim, so "validates the highlight's type against the 8 allowed
kinds before synthesizing" is false at this input. -/
theorem hermes_C7_counterexample :
    ((chatHandler envBogus0 inpOneHl).finalTurn.map fun t =>
        t.highlights.map (·.type)) = some ["bogus"] ∧
    allowedHighlightTypes.contains "bogus" = false ∧
    Action.emit (.highlight ⟨"h1-0", "bogus", "Climate", "Why?", none⟩) ∈
      (chatHandler envBogus0 inpOneHl).trace := by
  decide

/-- C7 (amended): when the model invokes `add_highlight` and its
accumulated input parses, the orchestrator synthesizes the Highlight
with a freshly generated id (`h<counter>-<now>`) and emits the
highlight frame immediately — carrying whatever type string the parsed
input holds, without validating it against the 8 allowed kinds (the
schema enumerates them for the model, but no runtime check exists; the
counterexample forces dropping the validation clause). -/
theorem hermes_C7_amended (env : ChatEnv) (t : TurnSt) (r : RoundSt)
    (inp : ToolInput) (hname : r.curName = "add_highlight")
    (hin : r.curInput ≠ "") (hp : env.parse r.curInput = some inp) :
    processEv env t r .blockStop =
      .ok
        ({ t with
            highlights := t.highlights ++
              [⟨mkHighlightId (t.hlCounter + 1) (env.timeAt (t.hlCounter + 1)),
                inp.type, inp.matchText, inp.comment, orUndef inp.suggestedEdit⟩],
            hlCounter := t.hlCounter + 1 },
         { r with curName := "", curInput := "",
                  blocks := r.blocks ++ [⟨r.curId, "add_highlight", inp⟩] })
        [.emit (.highlight
          ⟨mkHighlightId (t.hlCounter + 1) (env.timeAt (t.hlCounter + 1)),
           inp.type, inp.matchText, inp.comment, orUndef inp.suggestedEdit⟩)] := by
  simp [processEv, hp, hname, hin]

/-- C7 witness: the amended theorem applied to a pending
`add_highlight` block whose input parses to the out-of-enum
`bogusInput`. -/
theorem hermes_C7_witness :
    processEv envBogus0 initTurnSt ⟨"add_highlight", "J", "tu1", [], none⟩
        .blockStop =
      .ok
        ({ initTurnSt with
            highlights := initTurnSt.highlights ++
              [⟨mkHighlightId (initTurnSt.hlCounter + 1)
                  (envBogus0.timeAt (initTurnSt.hlCounter + 1)),
                bogusInput.type, bogusInput.matchText, bogusInput.comment,
                orUndef bogusInput.suggestedEdit⟩],
            hlCounter := initTurnSt.hlCounter + 1 },
         { (⟨"add_highlight", "J", "tu1", [], none⟩ : RoundSt) with
            curName := "", curInput := "",
            blocks := (⟨"add_highlight", "J", "tu1", [], none⟩ : RoundSt).blocks ++
              [⟨(⟨"add_highlight", "J", "tu1", [], none⟩ : RoundSt).curId,
                "add_highlight", bogusInput⟩] })
        [.emit (.highlight
          ⟨mkHighlightId (initTurnSt.hlCounter + 1)
              (envBogus0.timeAt (initTurnSt.hlCounter + 1)),
           bogusInput.type, bogusInput.matchText, bogusInput.comment,
           orUndef bogusInput.suggestedEdit⟩)] :=
  hermes_C7_amended envBogus0 initTurnSt ⟨"add_highlight", "J", "tu1", [], none⟩
    bogusInput rfl (by decide) rfl

/-- C10: a `tool_use` content block that completes with empty
accumulated input is silently dropped — `content_block_stop` with an
empty `currentToolInput` changes nothing (no event, no content block,
no state change) — and the turn continues: in the concrete two-block
round, only the well-formed `cite_source` block is recorded and
acknowledged in the next round's tool results, no error is emitted, no
highlight or tool-status frame appears, exactly one source frame does,
and the turn ends successfully. -/
theorem hermes_C10 :
    (∀ (env : ChatEnv) (t : TurnSt) (r : RoundSt), r.curInput = "" →
        processEv env t r .blockStop = .ok (t, r) []) ∧
    (chatHandler envSample5 inpEmptyInput).success = true ∧
    Action.nextRound ["tuOK"] ["tuOK"] ∈
      (chatHandler envSample5 inpEmptyInput).trace ∧
    (chatHandler envSample5 inpEmptyInput).trace.countP isErrorEmit = 0 ∧
    ((chatHandler envSample5 inpEmptyInput).trace.countP fun a =>
        match a with
        | Action.emit (.highlight _) => true
        | Action.emit (.toolStatus _ _ _) => true
        | _ => false) = 0 ∧
    ((chatHandler envSample5 inpEmptyInput).trace.countP fun a =>
        match a with
        | Action.emit (.source _) => true
        | _ => false) = 1 := by
  refine ⟨?_, by decide, by decide, by decide, by decide, by decide⟩
  intro env t r h
  simp only [processEv]
  rw [if_neg (by simp [h])]

/-- C10 witness: the dropped-block fact applied at the initial round
state (whose accumulated input is empty). -/
theorem hermes_C10_witness :
    processEv envSample5 initTurnSt initRoundSt .blockStop =
      .ok (initTurnSt, initRoundSt) [] :=
  hermes_C10.1 envSample5 initTurnSt initRoundSt rfl

theorem digitChar_ne_dash (n : Nat) : Nat.digitChar n ≠ '-' := by
  rcases Nat.lt_or_ge n 16 with h | h
  · interval_cases n <;> decide
  · have e : Nat.digitChar n = '*' := by
      unfold Nat.digitChar
      repeat rw [if_neg (by omega)]
    rw [e]
    decide

theorem decSpec_lt (m : Nat) (hm : m < 10) : decSpec m = [Nat.digitChar m] := by
  rw [decSpec, dif_pos hm]

theorem decSpec_ge (m : Nat) (hm : ¬ m < 10) :
    decSpec m = decSpec (m / 10) ++ [Nat.digitChar (m % 10)] := by
  rw [decSpec, dif_neg hm]

theorem toDigitsCore_eq_decSpec :
    ∀ (fuel n : Nat) (ds : List Char), n < fuel →
      Nat.toDigitsCore 10 fuel n ds = decSpec n ++ ds
  | 0, n, ds => by
    intro h
    exact absurd h (Nat.not_lt_zero n)
  | fuel + 1, n, ds => by
    intro h
    simp only [Nat.toDigitsCore]
    by_cases h0 : n / 10 = 0
    · rw [if_pos h0]
      have hn : n < 10 := by omega
      rw [decSpec_lt n hn, Nat.mod_eq_of_lt hn]
      simp
    · rw [if_neg h0]
      rw [toDigitsCore_eq_decSpec fuel (n / 10) (Nat.digitChar (n % 10) :: ds)
        (by omega)]
      rw [decSpec_ge n (by omega)]
      simp

theorem repr_data (n : Nat) : (Nat.repr n).data = decSpec n := by
  show (Nat.toDigitsCore 10 (n + 1) n []).asString.data = _
  rw [show (Nat.toDigitsCore 10 (n + 1) n []).asString.data =
      Nat.toDigitsCore 10 (n + 1) n [] from rfl]
  rw [toDigitsCore_eq_decSpec (n + 1) n [] (Nat.lt_succ_self n)]
  simp

theorem decSpec_no_dash (n : Nat) : ∀ c ∈ decSpec n, c ≠ '-' := by
  induction n using Nat.strong_induction_on with
  | _ n ih =>
    by_cases hn : n < 10
    · rw [decSpec_lt n hn]
      intro c hc
      simp only [List.mem_singleton] at hc
      subst hc
      exact digitChar_ne_dash n
    · rw [decSpec_ge n hn]
      intro c hc
      rcases List.mem_append.mp hc with hc | hc
      · exact ih (n / 10) (Nat.div_lt_self (by omega) (by omega)) c hc
      · simp only [List.mem_singleton] at hc
        subst hc
        exact digitChar_ne_dash (n % 10)

theorem decSpec_ne_nil (n : Nat) : decSpec n ≠ [] := by
  by_cases hn : n < 10
  · rw [decSpec_lt n hn]
    simp
  · rw [decSpec_ge n hn]
    simp

theorem digitChar_inj_lt :
    ∀ x < 10, ∀ y < 10, Nat.digitChar x = Nat.digitChar y → x = y := by
  decide

theorem decSpec_inj (a : Nat) : ∀ b, decSpec a = decSpec b → a = b := by
  induction a using Nat.strong_induction_on with
  | _ a ih =>
    intro b heq
    by_cases ha : a < 10 <;> by_cases hb : b < 10
    · rw [decSpec_lt a ha, decSpec_lt b hb] at heq
      simp only [List.cons.injEq, and_true] at heq
      exact digitChar_inj_lt a ha b hb heq
    · rw [decSpec_lt a ha, decSpec_ge b hb] at heq
      have hlen := congrArg List.length heq
      cases hd : decSpec (b / 10) with
      | nil => exact absurd hd (decSpec_ne_nil (b / 10))
      | cons x xs =>
        rw [hd] at hlen
        simp at hlen
    · rw [decSpec_ge a ha, decSpec_lt b hb] at heq
      have hlen := congrArg List.length heq
      cases hd : decSpec (a / 10) with
      | nil => exact absurd hd (decSpec_ne_nil (a / 10))
      | cons x xs =>
        rw [hd] at hlen
        simp at hlen
    · rw [decSpec_ge a ha, decSpec_ge b hb] at heq
      have h2 := congrArg List.reverse heq
      simp only [List.reverse_append, List.reverse_singleton,
        List.singleton_append] at h2
      injection h2 with h3 h4
      have hm := digitChar_inj_lt (a % 10) (Nat.mod_lt a (by omega))
        (b % 10) (Nat.mod_lt b (by omega)) h3
      have hdd : decSpec (a / 10) = decSpec (b / 10) := by
        have h5 := congrArg List.reverse h4
        simpa using h5
      have hdiv := ih (a / 10) (Nat.div_lt_self (by omega) (by omega)) (b / 10) hdd
      omega

theorem no_dash_append_inj :
    ∀ (x1 y1 x2 y2 : List Char),
      (∀ c ∈ x1, c ≠ '-') → (∀ c ∈ x2, c ≠ '-') →
      x1 ++ '-' :: y1 = x2 ++ '-' :: y2 → x1 = x2 ∧ y1 = y2
  | [], y1, [], y2, _, _, h => by simpa using h
  | [], y1, c :: x2, y2, _, h2, h => by
    simp only [List.nil_append, List.cons_append, List.cons.injEq] at h
    exact absurd h.1.symm (h2 c (by simp))
  | c :: x1, y1, [], y2, h1, _, h => by
    simp only [List.nil_append, List.cons_append, List.cons.injEq] at h
    exact absurd h.1 (h1 c (by simp))
  | c :: x1, y1, d :: x2, y2, h1, h2, h => by
    simp only [List.cons_append, List.cons.injEq] at h
    have hrec := no_dash_append_inj x1 y1 x2 y2
      (fun e he => h1 e (by simp [he])) (fun e he => h2 e (by simp [he])) h.2
    refine ⟨?_, hrec.2⟩
    rw [h.1, hrec.1]

theorem mkHighlightId_inj (c1 t1 c2 t2 : Nat) :
    mkHighlightId c1 t1 = mkHighlightId c2 t2 → c1 = c2 ∧ t1 = t2 := by
  intro h
  have hd := congrArg String.data h
  simp only [mkHighlightId, String.data_append] at hd
  rw [repr_data, repr_data, repr_data, repr_data] at hd
  simp only [List.append_assoc, List.singleton_append, List.cons_append,
    List.cons.injEq, true_and] at hd
  have h2 := no_dash_append_inj (decSpec c1) (decSpec t1) (decSpec c2)
    (decSpec t2) (decSpec_no_dash c1) (decSpec_no_dash c2) hd
  exact ⟨decSpec_inj c1 (c2) h2.1, decSpec_inj t1 (t2) h2.2⟩

theorem nodup_snoc {A : Type} (l : List A) (x : A) (hl : l.Nodup)
    (hx : x ∉ l) : (l ++ [x]).Nodup := by
  rw [List.nodup_append]
  refine ⟨hl, List.nodup_singleton x, ?_⟩
  intro a ha hax
  simp only [List.mem_singleton] at hax
  subst hax
  exact hx ha

theorem IdInv_init : IdInv initTurnSt := by
  constructor
  · simp [turnIds, initTurnSt]
  · intro c ts _
    simp [turnIds, initTurnSt]

theorem IdInv_congr (t t2 : TurnSt) (hh : t2.highlights = t.highlights)
    (hc : t2.hlCounter = t.hlCounter) (hinv : IdInv t) : IdInv t2 := by
  unfold IdInv turnIds at hinv ⊢
  rw [hh, hc]
  exact hinv

theorem processEv_idinv (env : ChatEnv) (t : TurnSt) (r : RoundSt)
    (e : StreamEv) (hinv : IdInv t) :
    ∀ t2 r2 acts, processEv env t r e = .ok (t2, r2) acts →
      IdInv t2 ∧ t.hlCounter ≤ t2.hlCounter := by
  intro t2 r2 acts hok
  cases e with
  | blockStartText =>
    simp only [processEv] at hok
    injection hok with h1 h2
    injection h1 with ht hr
    subst ht
    exact ⟨hinv, Nat.le_refl _⟩
  | blockStartTool name id =>
    simp only [processEv] at hok
    injection hok with h1 h2
    injection h1 with ht hr
    subst ht
    exact ⟨hinv, Nat.le_refl _⟩
  | textDelta sd =>
    simp only [processEv] at hok
    injection hok with h1 h2
    injection h1 with ht hr
    refine ⟨IdInv_congr t t2 ?_ ?_ hinv, ?_⟩ <;> rw [← ht]
  | inputJsonDelta sd =>
    simp only [processEv] at hok
    injection hok with h1 h2
    injection h1 with ht hr
    subst ht
    exact ⟨hinv, Nat.le_refl _⟩
  | messageDelta sr =>
    simp only [processEv] at hok
    injection hok with h1 h2
    injection h1 with ht hr
    subst ht
    exact ⟨hinv, Nat.le_refl _⟩
  | blockStop =>
    simp only [processEv] at hok
    by_cases hg : r.curName ≠ "" ∧ r.curInput ≠ ""
    · rw [if_pos hg] at hok
      cases hp : env.parse r.curInput with
      | none =>
        rw [hp] at hok
        by_cases h1 : r.curName = "add_highlight"
        · rw [if_pos h1] at hok
          exact StepRes.noConfusion hok
        · rw [if_neg h1] at hok
          by_cases h2 : r.curName = "cite_source"
          · rw [if_pos h2] at hok
            exact StepRes.noConfusion hok
          · rw [if_neg h2] at hok
            by_cases h3 : env.isMcpTool r.curName
            · rw [if_pos h3] at hok
              exact StepRes.noConfusion hok
            · rw [if_neg h3] at hok
              exact StepRes.noConfusion hok
      | some inp =>
        rw [hp] at hok
        by_cases h1 : r.curName = "add_highlight"
        · simp only [h1, if_pos] at hok
          injection hok with hpair hacts
          injection hpair with ht hr
          subst ht
          constructor
          · constructor
            · unfold turnIds
              simp only [List.map_append, List.map_cons, List.map_nil]
              refine nodup_snoc _ _ hinv.1 ?_
              exact hinv.2 (t.hlCounter + 1) (env.timeAt (t.hlCounter + 1))
                (Nat.lt_succ_self _)
            · intro c ts hc
              unfold turnIds
              simp only [List.map_append, List.map_cons, List.map_nil,
                List.mem_append, List.mem_singleton]
              push_neg
              constructor
              · exact hinv.2 c ts (by simp at hc; omega)
              · intro he
                have := (mkHighlightId_inj c ts (t.hlCounter + 1)
                  (env.timeAt (t.hlCounter + 1)) he).1
                simp at hc
                omega
          · simp
        · simp only [h1, if_neg, if_false] at hok
          by_cases h2 : r.curName = "cite_source"
          · simp only [h2, if_pos] at hok
            injection hok with hpair hacts
            injection hpair with ht hr
            refine ⟨IdInv_congr t t2 ?_ ?_ hinv, ?_⟩ <;> rw [← ht]
          · simp only [h2, if_neg, if_false] at hok
            by_cases h3 : env.isMcpTool r.curName
            · simp only [h3, if_pos, if_true] at hok
              injection hok with hpair hacts
              injection hpair with ht hr
              subst ht
              exact ⟨hinv, Nat.le_refl _⟩
            · simp only [h3, if_neg, if_false, Bool.false_eq_true] at hok
              injection hok with hpair hacts
              injection hpair with ht hr
              subst ht
              exact ⟨hinv, Nat.le_refl _⟩
    · rw [if_neg hg] at hok
      injection hok with h1 h2
      injection h1 with ht hr
      subst ht
      exact ⟨hinv, Nat.le_refl _⟩

theorem processRound_idinv (env : ChatEnv) :
    ∀ (evs : List StreamEv) (t : TurnSt) (r : RoundSt), IdInv t →
      ∀ s acts, processRound env t r evs = .ok s acts → IdInv s.1
  | [], t, r => by
    intro hinv s acts hok
    simp only [processRound] at hok
    injection hok with h1 h2
    rw [← h1]
    exact hinv
  | e :: es, t, r => by
    intro hinv s acts hok
    cases hpe : processEv env t r e with
    | failed acts2 =>
      simp only [processRound, hpe] at hok
      exact StepRes.noConfusion hok
    | ok s2 acts2 =>
      obtain ⟨t2, r2⟩ := s2
      have hinv2 := (processEv_idinv env t r e hinv t2 r2 acts2 hpe).1
      cases hpr : processRound env t2 r2 es with
      | failed acts3 =>
        simp only [processRound, hpe, hpr] at hok
        exact StepRes.noConfusion hok
      | ok s3 acts3 =>
        simp only [processRound, hpe, hpr] at hok
        injection hok with h1 h2
        rw [← h1]
        exact processRound_idinv env es t2 r2 hinv2 s3 acts3 hpr

theorem runLoop_idinv (env : ChatEnv) :
    ∀ (b : List RoundOutcome) (t : TurnSt) (tr : Nat), IdInv t →
      ∀ t2, (runLoop env t tr b).2 = some t2 → IdInv t2
  | [], t, tr => by
    intro hinv t2 h
    simp [runLoop] at h
  | ro :: rest, t, tr => by
    intro hinv t2 h
    cases ro with
    | fail => simp [runLoop] at h
    | stream evs =>
      cases hp : processRound env t initRoundSt evs with
      | failed acts =>
        simp only [runLoop, hp] at h
        exact Option.noConfusion h
      | ok s acts =>
        obtain ⟨t3, r3⟩ := s
        have hinv3 := processRound_idinv env evs t initRoundSt hinv (t3, r3) acts hp
        simp only [runLoop, hp] at h
        by_cases hstop : r3.stopReason = some "tool_use"
        · rw [if_pos hstop] at h
          by_cases hcap : tr + 1 ≥ MAX_TOOL_ROUNDS
          · rw [if_pos hcap] at h
            injection h with h2
            rw [← h2]
            exact hinv3
          · rw [if_neg hcap] at h
            exact runLoop_idinv env rest t3 (tr + 1) hinv3 t2 h
        · rw [if_neg hstop] at h
          injection h with h2
          rw [← h2]
          exact hinv3

/-- C8 counterexample: two one-highlight turns of the same conversation
(the second continues from the conversation stored by the first), each
emitting its first highlight in the same clock millisecond, generate
the identical id h1-5 — the per-turn counter restarts at 1 and the id
only disambiguates by the millisecond timestamp, so highlight ids are
not unique within a conversation. -/
theorem hermes_C8_counterexample :
    ((chatHandler envSample5 inpOneHl).finalTurn.map turnIds) = some ["h1-5"] ∧
    ((chatHandler envSample5 inpTurn2).finalTurn.map turnIds) = some ["h1-5"] ∧
    convAfterTurn1.length = 2 := by
  decide

/-- C8 (amended): highlight ids are unique within a single turn — the
per-request counter increases at every emission and the id embeds it,
so the final turn state never carries duplicate ids.  Across turns of
the same conversation the counter restarts and only the millisecond
timestamp distinguishes ids, so cross-turn uniqueness holds only when
no two highlights with the same counter index are generated in the
same millisecond (the counterexample forces this restriction). -/
theorem hermes_C8_amended (env : ChatEnv) (inp : HandlerInput) (t : TurnSt)
    (h : (chatHandler env inp).finalTurn = some t) :
    (turnIds t).Nodup := by
  by_cases ho : inp.ownedProject = false
  · simp [chatHandler, ho] at h
  · cases hres : (runLoop env initTurnSt 0 inp.behavior).2 with
    | none => simp [chatHandler, ho, hres] at h
    | some t3 =>
      simp only [chatHandler, if_neg ho, hres] at h
      injection h with h2
      rw [← h2]
      exact (runLoop_idinv env inp.behavior initTurnSt 0 IdInv_init t3 hres).1

/-- C8 witness: the amended theorem applied to the first one-highlight
turn, whose final state holds the single id h1-5. -/
theorem hermes_C8_witness :
    (turnIds ⟨"", [⟨"h1-5", "question", "Climate", "Why?", none⟩], [], 1⟩).Nodup :=
  hermes_C8_amended envSample5 inpOneHl
    ⟨"", [⟨"h1-5", "question", "Climate", "Why?", none⟩], [], 1⟩ (by decide)

end Hermes
